import Mathlib

/-!
# m3ninx query codec and index metadata results

A shallow embedding of

* `src/m3ninx/search/query/codec.go` (`Marshal`, `Unmarshal`, `UnmarshalProto`,
  `UnmarshalMetadata`, `UnmarshalProtoMetadata`), and
* `src/dbnode/storage/index/metadata_results.go` (`metadataResults`).

Conventions of the embedding.

* Go byte slices (`[]byte`) and Go strings are both modelled by `String`; the
  conversions `string(b)` and `[]byte(s)` are the identity and `bytes.Equal`
  is equality.  A nil slice and an empty slice are the same list.
* A Go result `(v, err)` of the serialiser, of `Marshal` and of
  `NewRegexpQuery` is an `Except Error`.  A call of a decoder ends in one of
  three ways: it returns a value (`.ok v`), it returns an error
  (`.error (.returned err)`), or it panics on a nil pointer
  (`.error .panicked`); a returned error and a panic both end every enclosing
  call, which is why they share the `error` side of `Except Failure`.
  `UnmarshalProtoMetadata` returns a triple `(query, metadata, err)`; every
  caller discards the first two components when `err != nil`, and so does the
  embedding.
* The decoders take pointers: a `*querypb.Query` can be nil (the constructor
  `nil`: the argument itself, `q.Negation.Query`, an element of `Queries`),
  and so can the payload pointer of a `oneof` wrapper (`nilPayload`).  The
  decoders dereference both without a check.
* The regular-expression compiler used by `NewRegexpQuery` lives outside the
  codec and is a parameter `compiles : String → Bool`.
-/

set_option autoImplicit false

namespace M3

/-! ## Errors -/

/-- The errors the codec can return. -/
inductive Error where
  /-- The package variable `errNilQuery`. -/
  | errNilQuery
  /-- The error `fmt.Errorf("unknown query: %+v", q)` of the decoders. -/
  | unknownQuery
  /-- The error of `NewRegexpQuery` when the pattern does not compile. -/
  | invalidRegexp
  /-- The error of the protobuf (de)serialiser. -/
  | protoError
  deriving DecidableEq, Repr

/-- The two ways in which a call of a decoder ends without a value. -/
inductive Failure where
  /-- The function returned the error `err`. -/
  | returned (err : Error)
  /-- The function panicked: a nil pointer was dereferenced. -/
  | panicked
  deriving DecidableEq, Repr

/-! ## The wire message `querypb.Query` -/

/-- The `oneof` wrappers of `querypb.Query` whose payload pointer the decoders
dereference: `Query_Field`, `Query_Term`, `Query_Regexp`, `Query_Negation`,
`Query_Conjunction`, `Query_Disjunction`. -/
inductive querypb.Variant where
  | Field | Term | Regexp | Negation | Conjunction | Disjunction
  deriving DecidableEq, Repr

/-- A pointer `*querypb.Query` to the generated message: a `oneof` over the
seven query variants.
* `nil` is the nil pointer;
* `unset` is a message whose `oneof` field `Query` is nil (no recognised
  variant);
* `nilPayload v` is a message whose `oneof` holds the wrapper `v` with a nil
  payload pointer (`&Query_Term{Term: nil}` and the like);
* the other constructors are a wrapper with its payload; `All` stands for
  `Query_All` with any payload, which no decoder reads. -/
inductive querypb.Query where
  | nil : querypb.Query
  | unset : querypb.Query
  | nilPayload (variant : querypb.Variant) : querypb.Query
  | All : querypb.Query
  | Field (Field : String) : querypb.Query
  | Term (Field : String) (Term : String) : querypb.Query
  | Regexp (Field : String) (Regexp : String) : querypb.Query
  | Negation (Query : querypb.Query) : querypb.Query
  | Conjunction (Queries : List querypb.Query) : querypb.Query
  | Disjunction (Queries : List querypb.Query) : querypb.Query
  deriving Repr

/-- The generated getter `(*querypb.Query).GetTerm`, which is nil-safe: the
`TermQuery` payload when the `oneof` holds a `Query_Term` with a payload, and
nil otherwise (also on a nil message and on a nil payload). -/
def querypb.Query.GetTerm : querypb.Query → Option (String × String)
  | .Term f t => some (f, t)
  | _ => none

/-! ## The query tree `search.Query` -/

/-- Modelled from the spec: the query types of package `query` (the files
`all.go`, `field.go`, `term.go`, `regexp.go`, `negation.go`, `conjunction.go`
and `disjunction.go` are not part of the sources at hand).  Section 3 of the
specification gives the query tree as a recursive sum type over these seven
variants, with ordered children for Conjunction and Disjunction. -/
inductive search.Query where
  | All : search.Query
  | Field (name : String) : search.Query
  | Term (field : String) (value : String) : search.Query
  | Regexp (field : String) (pattern : String) : search.Query
  | Negation (inner : search.Query) : search.Query
  | Conjunction (children : List search.Query) : search.Query
  | Disjunction (children : List search.Query) : search.Query
  deriving Repr

/-- Modelled from the spec: the constructor `NewAllQuery` (infallible). -/
def NewAllQuery : search.Query := .All

/-- Modelled from the spec: the constructor `NewFieldQuery` (infallible). -/
def NewFieldQuery (field : String) : search.Query := .Field field

/-- Modelled from the spec: the constructor `NewTermQuery` (infallible). -/
def NewTermQuery (field term : String) : search.Query := .Term field term

/-- Modelled from the spec: the constructor `NewRegexpQuery`, the only one
that can fail: it compiles the pattern and fails when it does not compile. -/
def NewRegexpQuery (compiles : String → Bool) (field regexp : String) :
    Except Error search.Query :=
  if compiles regexp then .ok (.Regexp field regexp) else .error .invalidRegexp

/-- Modelled from the spec: the constructor `NewNegationQuery` (infallible). -/
def NewNegationQuery (inner : search.Query) : search.Query := .Negation inner

/-- Modelled from the spec: the constructor `NewConjunctionQuery`
(infallible), owning the given children in order. -/
def NewConjunctionQuery (queries : List search.Query) : search.Query :=
  .Conjunction queries

/-- Modelled from the spec: the constructor `NewDisjunctionQuery`
(infallible), owning the given children in order. -/
def NewDisjunctionQuery (queries : List search.Query) : search.Query :=
  .Disjunction queries

/-! ## `codec.go` -/

/-- The constant `fldMetadata`. -/
def fldMetadata : String := "__metadata__"

mutual
/-- The function `UnmarshalProto` of `codec.go`.  The type switch reads
`q.Query` (a panic on a nil `q`), and every case but `Query_All` reads a field
of the payload (a panic on a nil payload). -/
def UnmarshalProto (compiles : String → Bool) :
    querypb.Query → Except Failure search.Query
  | .nil => .error .panicked
  | .nilPayload _ => .error .panicked
  | .All => .ok NewAllQuery
  | .Field f => .ok (NewFieldQuery f)
  | .Term f t => .ok (NewTermQuery f t)
  | .Regexp f r =>
    match NewRegexpQuery compiles f r with
    | .error err => .error (.returned err)
    | .ok query => .ok query
  | .Negation q =>
    match UnmarshalProto compiles q with
    | .error err => .error err
    | .ok inner => .ok (NewNegationQuery inner)
  | .Conjunction queries =>
    match UnmarshalProto.conjunctionLoop compiles queries [] with
    | .error err => .error err
    | .ok qs => .ok (NewConjunctionQuery qs)
  | .Disjunction queries =>
    match UnmarshalProto.disjunctionLoop compiles queries [] with
    | .error err => .error err
    | .ok qs => .ok (NewDisjunctionQuery qs)
  | .unset => .error (.returned .unknownQuery)
/-- The `for _, qry := range q.Conjunction.Queries` loop of `UnmarshalProto`;
`qs` is the slice built so far. -/
def UnmarshalProto.conjunctionLoop (compiles : String → Bool) :
    List querypb.Query → List search.Query → Except Failure (List search.Query)
  | [], qs => .ok qs
  | qry :: rest, qs =>
    match qry.GetTerm with
    | some (field, _) =>
      if field = "__metadata__" then
        UnmarshalProto.conjunctionLoop compiles rest qs
      else
        match UnmarshalProto compiles qry with
        | .error err => .error err
        | .ok sqry => UnmarshalProto.conjunctionLoop compiles rest (qs ++ [sqry])
    | none =>
      match UnmarshalProto compiles qry with
      | .error err => .error err
      | .ok sqry => UnmarshalProto.conjunctionLoop compiles rest (qs ++ [sqry])
/-- The `for _, qry := range q.Disjunction.Queries` loop of `UnmarshalProto`;
`qs` is the slice built so far. -/
def UnmarshalProto.disjunctionLoop (compiles : String → Bool) :
    List querypb.Query → List search.Query → Except Failure (List search.Query)
  | [], qs => .ok qs
  | qry :: rest, qs =>
    match UnmarshalProto compiles qry with
    | .error err => .error err
    | .ok sqry => UnmarshalProto.disjunctionLoop compiles rest (qs ++ [sqry])
end

mutual
/-- The function `UnmarshalProtoMetadata` of `codec.go`.  The loops of its
Conjunction and Disjunction cases are the same text and share
`UnmarshalProtoMetadata.queriesLoop`. -/
def UnmarshalProtoMetadata (compiles : String → Bool) :
    querypb.Query → List String → Except Failure (search.Query × List String)
  | .nil, _ => .error .panicked
  | .nilPayload _, _ => .error .panicked
  | .All, metadata => .ok (NewAllQuery, metadata)
  | .Field f, metadata => .ok (NewFieldQuery f, metadata)
  | .Term f t, metadata =>
    if fldMetadata = f then
      .ok (NewAllQuery, metadata ++ [t])
    else
      .ok (NewTermQuery f t, metadata)
  | .Regexp f r, metadata =>
    match NewRegexpQuery compiles f r with
    | .error err => .error (.returned err)
    | .ok query => .ok (query, metadata)
  | .Negation q, metadata =>
    match UnmarshalProtoMetadata compiles q metadata with
    | .error err => .error err
    | .ok (inner, md) => .ok (NewNegationQuery inner, md)
  | .Conjunction queries, metadata =>
    match UnmarshalProtoMetadata.queriesLoop compiles queries [] metadata with
    | .error err => .error err
    | .ok (qs, metadata) =>
      if qs.length = 0 then .ok (NewAllQuery, metadata)
      else .ok (NewConjunctionQuery qs, metadata)
  | .Disjunction queries, metadata =>
    match UnmarshalProtoMetadata.queriesLoop compiles queries [] metadata with
    | .error err => .error err
    | .ok (qs, metadata) =>
      if qs.length = 0 then .ok (NewAllQuery, metadata)
      else .ok (NewDisjunctionQuery qs, metadata)
  | .unset, _ => .error (.returned .unknownQuery)
/-- The `for _, qry := range ... .Queries` loop of the Conjunction and of the
Disjunction case of `UnmarshalProtoMetadata`; `qs` is the slice built so far
and `metadata` the current value of the variable `metadata`. -/
def UnmarshalProtoMetadata.queriesLoop (compiles : String → Bool) :
    List querypb.Query → List search.Query → List String →
      Except Failure (List search.Query × List String)
  | [], qs, metadata => .ok (qs, metadata)
  | qry :: rest, qs, metadata =>
    match qry.GetTerm with
    | some (field, term) =>
      if fldMetadata = field then
        UnmarshalProtoMetadata.queriesLoop compiles rest qs (metadata ++ [term])
      else
        match UnmarshalProtoMetadata compiles qry metadata with
        | .error err => .error err
        | .ok (sqry, md) =>
          UnmarshalProtoMetadata.queriesLoop compiles rest (qs ++ [sqry]) md
    | none =>
      match UnmarshalProtoMetadata compiles qry metadata with
      | .error err => .error err
      | .ok (sqry, md) =>
        UnmarshalProtoMetadata.queriesLoop compiles rest (qs ++ [sqry]) md
end

mutual
/-- Modelled from the spec: the method `ToProto` of the query types (not part
of the sources at hand): it "converts the tree to the external
structured-message form", variant by variant, children in order. -/
def search.Query.ToProto : search.Query → querypb.Query
  | .All => .All
  | .Field name => .Field name
  | .Term field value => .Term field value
  | .Regexp field pattern => .Regexp field pattern
  | .Negation inner => .Negation inner.ToProto
  | .Conjunction children => .Conjunction (search.Query.ToProto.children children)
  | .Disjunction children => .Disjunction (search.Query.ToProto.children children)
/-- The wire forms of a list of children, in order. -/
def search.Query.ToProto.children : List search.Query → List querypb.Query
  | [] => []
  | q :: qs => q.ToProto :: search.Query.ToProto.children qs
end

/-- The function `Marshal` of `codec.go`; `none` is the nil query.  The
protobuf serialiser `(*querypb.Query).Marshal` is the parameter `pbMarshal`,
producing values of a type `β` of byte strings. -/
def Marshal {β : Type} (pbMarshal : querypb.Query → Except Error β) :
    Option search.Query → Except Error β
  | none => .error .errNilQuery
  | some q => pbMarshal q.ToProto

/-- The function `Unmarshal` of `codec.go`.  The protobuf parser
`(*querypb.Query).Unmarshal` is the parameter `pbUnmarshal`. -/
def Unmarshal {β : Type} (compiles : String → Bool)
    (pbUnmarshal : β → Except Error querypb.Query) (data : β) :
    Except Failure search.Query :=
  match pbUnmarshal data with
  | .error err => .error (.returned err)
  | .ok pb => UnmarshalProto compiles pb

/-- The function `UnmarshalMetadata` of `codec.go`: the metadata-aware decoder
started with the nil slice `metadata`. -/
def UnmarshalMetadata {β : Type} (compiles : String → Bool)
    (pbUnmarshal : β → Except Error querypb.Query) (data : β) :
    Except Failure (search.Query × List String) :=
  match pbUnmarshal data with
  | .error err => .error (.returned err)
  | .ok pb => UnmarshalProtoMetadata compiles pb []

/-! ## Vocabulary of the specification -/

/-- A wire node is a sentinel when it is a `Term` whose field is the reserved
name `"__metadata__"`. -/
def querypb.Query.isSentinel : querypb.Query → Bool
  | .Term f _ => decide (f = "__metadata__")
  | _ => false

mutual
/-- A query tree contains, at some depth, a `Term` whose field is
`"__metadata__"`. -/
def search.Query.hasSentinel : search.Query → Bool
  | .Term field _ => decide (field = "__metadata__")
  | .Negation inner => inner.hasSentinel
  | .Conjunction children => search.Query.hasSentinel.any children
  | .Disjunction children => search.Query.hasSentinel.any children
  | _ => false
/-- Some tree of the list contains a sentinel `Term`. -/
def search.Query.hasSentinel.any : List search.Query → Bool
  | [] => false
  | q :: qs => q.hasSentinel || search.Query.hasSentinel.any qs
end

mutual
/-- Every `Regexp` node of the tree carries a pattern that compiles: the trees
that the constructors of the query package can build. -/
def search.Query.regexpsCompile (compiles : String → Bool) : search.Query → Bool
  | .Regexp _ pattern => compiles pattern
  | .Negation inner => inner.regexpsCompile compiles
  | .Conjunction children => search.Query.regexpsCompile.all compiles children
  | .Disjunction children => search.Query.regexpsCompile.all compiles children
  | _ => true
/-- Every tree of the list satisfies `regexpsCompile`. -/
def search.Query.regexpsCompile.all (compiles : String → Bool) :
    List search.Query → Bool
  | [] => true
  | q :: qs => q.regexpsCompile compiles && search.Query.regexpsCompile.all compiles qs
end

mutual
/-- The values of all `Term` nodes with field `"__metadata__"` of a wire
message, at any depth, in pre-order (left to right, depth first). -/
def querypb.Query.metadataValues : querypb.Query → List String
  | .Term f t => if f = "__metadata__" then [t] else []
  | .Negation q => q.metadataValues
  | .Conjunction qs => querypb.Query.metadataValues.concat qs
  | .Disjunction qs => querypb.Query.metadataValues.concat qs
  | _ => []
/-- The metadata values of a list of wire messages, left to right. -/
def querypb.Query.metadataValues.concat : List querypb.Query → List String
  | [] => []
  | q :: qs => q.metadataValues ++ querypb.Query.metadataValues.concat qs
end

mutual
/-- A wire message contains, at some depth, a `Term` whose field is
`"__metadata__"`. -/
def querypb.Query.hasSentinel : querypb.Query → Bool
  | .Term f _ => decide (f = "__metadata__")
  | .Negation q => q.hasSentinel
  | .Conjunction qs => querypb.Query.hasSentinel.any qs
  | .Disjunction qs => querypb.Query.hasSentinel.any qs
  | _ => false
/-- Some message of the list contains a sentinel `Term`. -/
def querypb.Query.hasSentinel.any : List querypb.Query → Bool
  | [] => false
  | q :: qs => q.hasSentinel || querypb.Query.hasSentinel.any qs
end

mutual
/-- A wire message contains, at some depth, a query with no (recognised)
variant set or a `Regexp` whose pattern does not compile.  A nil message has
no variant set: it is what an absent sub-message field parses to, and on the
wire it is the empty message. -/
def querypb.Query.hasInvalid (compiles : String → Bool) : querypb.Query → Bool
  | .nil => true
  | .unset => true
  | .Regexp _ r => !compiles r
  | .Negation q => q.hasInvalid compiles
  | .Conjunction qs => querypb.Query.hasInvalid.any compiles qs
  | .Disjunction qs => querypb.Query.hasInvalid.any compiles qs
  | _ => false
/-- Some message of the list contains an invalid node. -/
def querypb.Query.hasInvalid.any (compiles : String → Bool) :
    List querypb.Query → Bool
  | [] => false
  | q :: qs => q.hasInvalid compiles || querypb.Query.hasInvalid.any compiles qs
end

mutual
/-- A wire message has, at some depth, a nil pointer: a nil message or a
`oneof` wrapper with a nil payload. -/
def querypb.Query.hasNil : querypb.Query → Bool
  | .nil => true
  | .nilPayload _ => true
  | .Negation q => q.hasNil
  | .Conjunction qs => querypb.Query.hasNil.any qs
  | .Disjunction qs => querypb.Query.hasNil.any qs
  | _ => false
/-- Some message of the list has a nil pointer. -/
def querypb.Query.hasNil.any : List querypb.Query → Bool
  | [] => false
  | q :: qs => q.hasNil || querypb.Query.hasNil.any qs
end

mutual
/-- Every Conjunction and Disjunction node of a wire message, at any depth,
has at least one child. -/
def querypb.Query.booleansNonEmpty : querypb.Query → Bool
  | .Negation q => q.booleansNonEmpty
  | .Conjunction qs => !qs.isEmpty && querypb.Query.booleansNonEmpty.all qs
  | .Disjunction qs => !qs.isEmpty && querypb.Query.booleansNonEmpty.all qs
  | _ => true
/-- Every message of the list satisfies `booleansNonEmpty`. -/
def querypb.Query.booleansNonEmpty.all : List querypb.Query → Bool
  | [] => true
  | q :: qs => q.booleansNonEmpty && querypb.Query.booleansNonEmpty.all qs
end

mutual
/-- The shape under which the two decoders are compared: `Term`s with field
`"__metadata__"` occur only as direct children of Conjunction nodes, every
Conjunction has at least one direct child that is not such a `Term`, and every
Disjunction has at least one child. -/
def querypb.Query.sentinelsUnderConjunction : querypb.Query → Bool
  | .Term f _ => !decide (f = "__metadata__")
  | .Negation q => q.sentinelsUnderConjunction
  | .Conjunction qs =>
    qs.any (fun c => !c.isSentinel) &&
      querypb.Query.sentinelsUnderConjunction.conjunctionChildren qs
  | .Disjunction qs =>
    !qs.isEmpty && querypb.Query.sentinelsUnderConjunction.children qs
  | _ => true
/-- The direct children of a Conjunction: each is a sentinel `Term` or has the
shape `sentinelsUnderConjunction`. -/
def querypb.Query.sentinelsUnderConjunction.conjunctionChildren :
    List querypb.Query → Bool
  | [] => true
  | q :: qs =>
    (q.isSentinel || q.sentinelsUnderConjunction) &&
      querypb.Query.sentinelsUnderConjunction.conjunctionChildren qs
/-- The children of a Disjunction: each has the shape
`sentinelsUnderConjunction`. -/
def querypb.Query.sentinelsUnderConjunction.children : List querypb.Query → Bool
  | [] => true
  | q :: qs =>
    q.sentinelsUnderConjunction && querypb.Query.sentinelsUnderConjunction.children qs
end

/-! ## `metadata_results.go` -/

/-- The type `xtime.UnixNano` (an `int64` time stamp, used here only as a map
key). -/
abbrev xtime.UnixNano := Int

/-- Modelled from the spec: the type `QueryMetadataBlockResults` (declared in
`index/types.go`, not part of the sources at hand): per time block, the block
start and the ordered sequence of results; the payload type
`QueryMetadataAggregateResult` is the parameter `Result`. -/
structure QueryMetadataBlockResults (Result : Type) where
  BlockStart : xtime.UnixNano
  Results : List Result
  deriving DecidableEq, Repr

/-- The struct `metadataResults`.  The embedded `sync.RWMutex` is not part of
the state: every method runs under the lock and is modelled as one atomic
step.  `ID` stands for `ident.ID`, `Hash` for `sharding.HashFn`; the Go map
is a finite map. -/
structure metadataResults (ID Hash Result : Type) where
  nsID : ID
  hashFn : Hash
  results : Finmap (fun _ : xtime.UnixNano => QueryMetadataBlockResults Result)

section MetadataResults

variable {ID Hash Result : Type}

/-- The constructor `NewQueryMetadataResults`. -/
def NewQueryMetadataResults (namespaceID : ID) (hashFn : Hash) :
    metadataResults ID Hash Result :=
  { nsID := namespaceID, hashFn := hashFn, results := ∅ }

/-- The method `Namespace`. -/
def metadataResults.Namespace (r : metadataResults ID Hash Result) : ID := r.nsID

/-- The method `HashFn`. -/
def metadataResults.HashFn (r : metadataResults ID Hash Result) : Hash := r.hashFn

/-- The method `AddQueryMetadataResult`; the result is the state after the
call. -/
def metadataResults.AddQueryMetadataResult (r : metadataResults ID Hash Result)
    (blockStart : xtime.UnixNano) (result : Result) :
    metadataResults ID Hash Result :=
  let entry : QueryMetadataBlockResults Result :=
    match r.results.lookup blockStart with
    | some entry => entry
    | none => { BlockStart := blockStart, Results := [] }
  let entry := { entry with Results := entry.Results ++ [result] }
  { r with results := r.results.insert blockStart entry }

/-- The method `Map`. -/
def metadataResults.Map (r : metadataResults ID Hash Result) :
    Finmap (fun _ : xtime.UnixNano => QueryMetadataBlockResults Result) := r.results

/-- The method `Finalize` (a nop); the result is the state after the call. -/
def metadataResults.Finalize (r : metadataResults ID Hash Result) :
    metadataResults ID Hash Result := r

/-- The state after a sequence of `AddQueryMetadataResult` calls, applied in
list order. -/
def metadataResults.addAll (r : metadataResults ID Hash Result)
    (calls : List (xtime.UnixNano × Result)) : metadataResults ID Hash Result :=
  calls.foldl (fun s call => s.AddQueryMetadataResult call.1 call.2) r

/-- Every entry is stored under its own block start. -/
def metadataResults.KeysMatch (r : metadataResults ID Hash Result) : Prop :=
  ∀ k e, r.results.lookup k = some e → e.BlockStart = k

/-- The calls a client can make on the accumulator. -/
inductive metadataResults.Call (Result : Type) where
  | Namespace : metadataResults.Call Result
  | HashFn : metadataResults.Call Result
  | Map : metadataResults.Call Result
  | Finalize : metadataResults.Call Result
  | AddQueryMetadataResult (blockStart : xtime.UnixNano) (result : Result) :
    metadataResults.Call Result

/-- The call is `AddQueryMetadataResult`, the only method that assigns to the
struct. -/
def metadataResults.Call.isAdd : metadataResults.Call Result → Bool
  | .AddQueryMetadataResult _ _ => true
  | _ => false

/-- The state after one call: `Namespace`, `HashFn` and `Map` only read a
field, `Finalize` is a nop, `AddQueryMetadataResult` updates the map. -/
def metadataResults.step (r : metadataResults ID Hash Result) :
    metadataResults.Call Result → metadataResults ID Hash Result
  | .Namespace => r
  | .HashFn => r
  | .Map => r
  | .Finalize => r.Finalize
  | .AddQueryMetadataResult blockStart result =>
    r.AddQueryMetadataResult blockStart result

/-- The state after a sequence of calls, applied in list order. -/
def metadataResults.run (r : metadataResults ID Hash Result)
    (calls : List (metadataResults.Call Result)) : metadataResults ID Hash Result :=
  calls.foldl (fun s call => s.step call) r

end MetadataResults

/-! ## Induction principles and list lemmas -/

/-- Structural induction on wire messages, with the induction hypothesis for
every child of a Conjunction or Disjunction. -/
theorem querypb.Query.wire_induct {P : querypb.Query → Prop}
    (nil : P .nil) (unset : P .unset) (nilPayload : ∀ v, P (.nilPayload v))
    (all : P .All) (field : ∀ f, P (.Field f))
    (term : ∀ f t, P (.Term f t)) (regexp : ∀ f r, P (.Regexp f r))
    (negation : ∀ q, P q → P (.Negation q))
    (conjunction : ∀ qs, (∀ q ∈ qs, P q) → P (.Conjunction qs))
    (disjunction : ∀ qs, (∀ q ∈ qs, P q) → P (.Disjunction qs)) :
    ∀ q, P q :=
  @querypb.Query.rec P (fun l => ∀ q ∈ l, P q) nil unset nilPayload all field term
    regexp negation conjunction disjunction
    (fun q hq => absurd hq (List.not_mem_nil q))
    (fun _ _ hh ht q hq => by
      rcases List.mem_cons.mp hq with rfl | hq
      · exact hh
      · exact ht q hq)

/-- Structural induction on query trees, with the induction hypothesis for
every child of a Conjunction or Disjunction. -/
theorem search.Query.tree_induct {P : search.Query → Prop}
    (all : P .All) (field : ∀ f, P (.Field f))
    (term : ∀ f t, P (.Term f t)) (regexp : ∀ f r, P (.Regexp f r))
    (negation : ∀ q, P q → P (.Negation q))
    (conjunction : ∀ qs, (∀ q ∈ qs, P q) → P (.Conjunction qs))
    (disjunction : ∀ qs, (∀ q ∈ qs, P q) → P (.Disjunction qs)) :
    ∀ q, P q :=
  @search.Query.rec P (fun l => ∀ q ∈ l, P q) all field term regexp
    negation conjunction disjunction
    (fun q hq => absurd hq (List.not_mem_nil q))
    (fun _ _ hh ht q hq => by
      rcases List.mem_cons.mp hq with rfl | hq
      · exact hh
      · exact ht q hq)

theorem search.Query.hasSentinel.tree_any_eq_false {l : List search.Query} :
    search.Query.hasSentinel.any l = false ↔ ∀ q ∈ l, q.hasSentinel = false := by
  induction l with
  | nil => simp [search.Query.hasSentinel.any]
  | cons a l ih => simp [search.Query.hasSentinel.any, ih]

theorem search.Query.regexpsCompile.regexps_all_eq_true {compiles : String → Bool}
    {l : List search.Query} :
    search.Query.regexpsCompile.all compiles l = true ↔
      ∀ q ∈ l, q.regexpsCompile compiles = true := by
  induction l with
  | nil => simp [search.Query.regexpsCompile.all]
  | cons a l ih => simp [search.Query.regexpsCompile.all, ih]

theorem querypb.Query.hasSentinel.wire_any_eq_false {l : List querypb.Query} :
    querypb.Query.hasSentinel.any l = false ↔ ∀ q ∈ l, q.hasSentinel = false := by
  induction l with
  | nil => simp [querypb.Query.hasSentinel.any]
  | cons a l ih => simp [querypb.Query.hasSentinel.any, ih]

theorem querypb.Query.hasInvalid.any_eq_true {compiles : String → Bool}
    {l : List querypb.Query} :
    querypb.Query.hasInvalid.any compiles l = true ↔
      ∃ q ∈ l, q.hasInvalid compiles = true := by
  induction l with
  | nil => simp [querypb.Query.hasInvalid.any]
  | cons a l ih => simp [querypb.Query.hasInvalid.any, ih]

theorem querypb.Query.booleansNonEmpty.booleans_all_eq_true {l : List querypb.Query} :
    querypb.Query.booleansNonEmpty.all l = true ↔
      ∀ q ∈ l, q.booleansNonEmpty = true := by
  induction l with
  | nil => simp [querypb.Query.booleansNonEmpty.all]
  | cons a l ih => simp [querypb.Query.booleansNonEmpty.all, ih]

/-! ## Round trip through the wire form -/

theorem UnmarshalProto.conjunctionLoop_ToProto (compiles : String → Bool)
    (ts : List search.Query)
    (h : ∀ t ∈ ts, t.hasSentinel = false ∧ UnmarshalProto compiles t.ToProto = .ok t) :
    ∀ qs, UnmarshalProto.conjunctionLoop compiles (search.Query.ToProto.children ts) qs
      = .ok (qs ++ ts) := by
  induction ts with
  | nil => intro qs; simp [search.Query.ToProto.children, UnmarshalProto.conjunctionLoop]
  | cons t ts ih =>
    intro qs
    have ht := h t (List.mem_cons_self t ts)
    have ih := ih (fun x hx => h x (List.mem_cons_of_mem t hx))
    cases t <;>
      simp_all [search.Query.ToProto.children, UnmarshalProto.conjunctionLoop,
        search.Query.ToProto, querypb.Query.GetTerm, search.Query.hasSentinel]

theorem UnmarshalProto.disjunctionLoop_ToProto (compiles : String → Bool)
    (ts : List search.Query)
    (h : ∀ t ∈ ts, UnmarshalProto compiles t.ToProto = .ok t) :
    ∀ qs, UnmarshalProto.disjunctionLoop compiles (search.Query.ToProto.children ts) qs
      = .ok (qs ++ ts) := by
  induction ts with
  | nil => intro qs; simp [search.Query.ToProto.children, UnmarshalProto.disjunctionLoop]
  | cons t ts ih =>
    intro qs
    have ht := h t (List.mem_cons_self t ts)
    have ih := ih (fun x hx => h x (List.mem_cons_of_mem t hx))
    simp [search.Query.ToProto.children, UnmarshalProto.disjunctionLoop, ht, ih]

theorem UnmarshalProto_ToProto (compiles : String → Bool) :
    ∀ t : search.Query, t.hasSentinel = false → t.regexpsCompile compiles = true →
      UnmarshalProto compiles t.ToProto = .ok t := by
  intro t
  induction t using search.Query.tree_induct with
  | all => intros; rfl
  | field f => intros; rfl
  | term f v => intros; rfl
  | regexp f r =>
    intro _ hr
    simp [search.Query.regexpsCompile] at hr
    simp [search.Query.ToProto, UnmarshalProto, NewRegexpQuery, hr]
  | negation q ih =>
    intro hs hr
    simp only [search.Query.hasSentinel, search.Query.regexpsCompile] at hs hr
    simp [search.Query.ToProto, UnmarshalProto, ih hs hr, NewNegationQuery]
  | conjunction qs ih =>
    intro hs hr
    simp only [search.Query.hasSentinel, search.Query.regexpsCompile,
      search.Query.hasSentinel.tree_any_eq_false, search.Query.regexpsCompile.regexps_all_eq_true] at hs hr
    simp [search.Query.ToProto, UnmarshalProto, NewConjunctionQuery,
      UnmarshalProto.conjunctionLoop_ToProto compiles qs
        (fun t ht => ⟨hs t ht, ih t ht (hs t ht) (hr t ht)⟩)]
  | disjunction qs ih =>
    intro hs hr
    simp only [search.Query.hasSentinel, search.Query.regexpsCompile,
      search.Query.hasSentinel.tree_any_eq_false, search.Query.regexpsCompile.regexps_all_eq_true] at hs hr
    simp [search.Query.ToProto, UnmarshalProto, NewDisjunctionQuery,
      UnmarshalProto.disjunctionLoop_ToProto compiles qs
        (fun t ht => ih t ht (hs t ht) (hr t ht))]

/-- C1: round trip.  For every query tree that contains no `Term` whose field
is `"__metadata__"` (a query tree being one the constructors can build, so
that its `Regexp` patterns compile), normal-mode decoding of its wire form
succeeds and returns the tree itself, children in the same order; with a
protobuf serialiser that parses back what it wrote, `Unmarshal (Marshal tree)`
succeeds with that tree. -/
theorem roundtrip_Unmarshal_Marshal {β : Type} (compiles : String → Bool)
    (pbMarshal : querypb.Query → Except Error β)
    (pbUnmarshal : β → Except Error querypb.Query)
    (hpb : ∀ w, ∃ b, pbMarshal w = .ok b ∧ pbUnmarshal b = .ok w)
    (tree : search.Query) (hs : tree.hasSentinel = false)
    (hr : tree.regexpsCompile compiles = true) :
    UnmarshalProto compiles tree.ToProto = .ok tree ∧
      ∃ data, Marshal pbMarshal (some tree) = .ok data ∧
        Unmarshal compiles pbUnmarshal data = .ok tree := by
  have hrt := UnmarshalProto_ToProto compiles tree hs hr
  refine ⟨hrt, ?_⟩
  obtain ⟨b, hb, hb'⟩ := hpb tree.ToProto
  exact ⟨b, by simp [Marshal, hb], by simp [Unmarshal, hb', hrt]⟩

theorem roundtrip_Unmarshal_Marshal_witness :
    (∀ w : querypb.Query, ∃ b, (Except.ok w : Except Error querypb.Query) = .ok b ∧
        (Except.ok b : Except Error querypb.Query) = .ok w) ∧
      (search.Query.Conjunction [.Term "tag" "value", .Negation (.Regexp "host" "a.*"),
          .Disjunction [.All, .Field "dc"]]).hasSentinel = false ∧
      (search.Query.Conjunction [.Term "tag" "value", .Negation (.Regexp "host" "a.*"),
          .Disjunction [.All, .Field "dc"]]).regexpsCompile (fun _ => true) = true ∧
      (UnmarshalProto (fun _ => true)
          (search.Query.Conjunction [.Term "tag" "value", .Negation (.Regexp "host" "a.*"),
            .Disjunction [.All, .Field "dc"]]).ToProto
          = .ok (.Conjunction [.Term "tag" "value", .Negation (.Regexp "host" "a.*"),
            .Disjunction [.All, .Field "dc"]]) ∧
        ∃ data, Marshal Except.ok (some (search.Query.Conjunction [.Term "tag" "value",
            .Negation (.Regexp "host" "a.*"), .Disjunction [.All, .Field "dc"]])) = .ok data ∧
          Unmarshal (fun _ => true) Except.ok data
            = .ok (.Conjunction [.Term "tag" "value", .Negation (.Regexp "host" "a.*"),
              .Disjunction [.All, .Field "dc"]])) :=
  ⟨fun w => ⟨w, rfl, rfl⟩, by rfl, by rfl,
    roundtrip_Unmarshal_Marshal (fun _ => true) Except.ok Except.ok
      (fun w => ⟨w, rfl, rfl⟩) _ (by rfl) (by rfl)⟩

/-! ## Normal mode: sentinel children of a Conjunction -/

theorem UnmarshalProto.conjunctionLoop_filter (compiles : String → Bool)
    (cs : List querypb.Query)
    (h : ∀ c ∈ cs, ∃ q, UnmarshalProto compiles c = .ok q) :
    ∀ qs, ∃ l, UnmarshalProto.conjunctionLoop compiles cs qs = .ok (qs ++ l) ∧
      List.Forall₂ (fun c q => UnmarshalProto compiles c = .ok q)
        (cs.filter (fun c => !c.isSentinel)) l := by
  induction cs with
  | nil => intro qs; exact ⟨[], by simp [UnmarshalProto.conjunctionLoop]⟩
  | cons c cs ih =>
    intro qs
    obtain ⟨q, hq⟩ := h c (List.mem_cons_self c cs)
    have ih := ih (fun x hx => h x (List.mem_cons_of_mem c hx))
    by_cases hc : c.isSentinel = true
    · obtain ⟨l, hl, hf⟩ := ih qs
      refine ⟨l, ?_, ?_⟩
      · cases c <;> simp_all [querypb.Query.isSentinel, UnmarshalProto.conjunctionLoop,
          querypb.Query.GetTerm]
      · simpa [List.filter_cons, hc] using hf
    · obtain ⟨l, hl, hf⟩ := ih (qs ++ [q])
      refine ⟨q :: l, ?_, ?_⟩
      · cases c <;> simp_all [querypb.Query.isSentinel, UnmarshalProto.conjunctionLoop,
          querypb.Query.GetTerm]
      · simpa [List.filter_cons, hc] using ⟨hq, hf⟩

/-- C2: normal-mode sentinel stripping in a Conjunction.  For every wire
Conjunction whose children all decode successfully, `UnmarshalProto` returns a
Conjunction whose children are exactly the decodings of the direct children
that are not a `Term` with field `"__metadata__"`, in their original order;
`Conjunction [Term "tag" "value", Term "__metadata__" "cardinality"]` decodes
to `Conjunction [Term "tag" "value"]`. -/
theorem UnmarshalProto_Conjunction_strips (compiles : String → Bool)
    (cs : List querypb.Query)
    (h : ∀ c ∈ cs, ∃ q, UnmarshalProto compiles c = .ok q) :
    (∃ qs, UnmarshalProto compiles (.Conjunction cs) = .ok (.Conjunction qs) ∧
      List.Forall₂ (fun c q => UnmarshalProto compiles c = .ok q)
        (cs.filter (fun c => !c.isSentinel)) qs) ∧
    UnmarshalProto compiles
        (.Conjunction [.Term "tag" "value", .Term "__metadata__" "cardinality"])
      = .ok (.Conjunction [.Term "tag" "value"]) := by
  refine ⟨?_, by rfl⟩
  obtain ⟨l, hl, hf⟩ := UnmarshalProto.conjunctionLoop_filter compiles cs h []
  simp only [List.nil_append] at hl
  exact ⟨l, by simp [UnmarshalProto, NewConjunctionQuery, hl], hf⟩

theorem UnmarshalProto_Conjunction_strips_witness :
    (∀ c ∈ [querypb.Query.Term "__metadata__" "a", .Negation (.Field "dc"),
        .Term "__metadata__" "b", .Term "tag" "value"],
      ∃ q, UnmarshalProto (fun _ => true) c = .ok q) ∧
    ((∃ qs, UnmarshalProto (fun _ => true)
        (.Conjunction [.Term "__metadata__" "a", .Negation (.Field "dc"),
          .Term "__metadata__" "b", .Term "tag" "value"]) = .ok (.Conjunction qs) ∧
      List.Forall₂ (fun c q => UnmarshalProto (fun _ => true) c = .ok q)
        ([querypb.Query.Term "__metadata__" "a", .Negation (.Field "dc"),
          .Term "__metadata__" "b", .Term "tag" "value"].filter
            (fun c => !c.isSentinel)) qs) ∧
    UnmarshalProto (fun _ => true)
        (.Conjunction [.Term "tag" "value", .Term "__metadata__" "cardinality"])
      = .ok (.Conjunction [.Term "tag" "value"])) :=
  have h : ∀ c ∈ [querypb.Query.Term "__metadata__" "a", .Negation (.Field "dc"),
        .Term "__metadata__" "b", .Term "tag" "value"],
      ∃ q, UnmarshalProto (fun _ => true) c = .ok q := by
    intro c hc
    simp only [List.mem_cons, List.mem_singleton, List.not_mem_nil, or_false] at hc
    rcases hc with rfl | rfl | rfl | rfl
    · exact ⟨_, rfl⟩
    · exact ⟨_, rfl⟩
    · exact ⟨_, rfl⟩
    · exact ⟨_, rfl⟩
  ⟨h, UnmarshalProto_Conjunction_strips (fun _ => true) _ h⟩

/-! ## Normal mode: sentinel children of a Disjunction -/

/-- C3: the Disjunction case of `UnmarshalProto` has no sentinel check (the
Conjunction case of the same function has one): the sentinel child of
`Disjunction [Term "tag" "value", Term "__metadata__" "cardinality"]` is
decoded and kept as a `Term`, where the claim has it dropped. -/
theorem UnmarshalProto_Disjunction_keeps_sentinel (compiles : String → Bool) :
    UnmarshalProto compiles
        (.Disjunction [.Term "tag" "value", .Term "__metadata__" "cardinality"])
      = .ok (.Disjunction [.Term "tag" "value", .Term "__metadata__" "cardinality"]) ∧
    [querypb.Query.Term "tag" "value", .Term "__metadata__" "cardinality"].filter
        (fun c => !c.isSentinel) = [.Term "tag" "value"] := by
  constructor
  · rfl
  · rfl

/-! ## Metadata-aware mode: the loop, one child at a time -/

theorem querypb.Query.isSentinel_iff {c : querypb.Query} :
    c.isSentinel = true ↔ ∃ t, c = .Term "__metadata__" t := by
  cases c <;> simp [querypb.Query.isSentinel]

theorem UnmarshalProtoMetadata.queriesLoop_sentinel (compiles : String → Bool)
    (t : String) (rest : List querypb.Query) (qs : List search.Query)
    (metadata : List String) :
    UnmarshalProtoMetadata.queriesLoop compiles (.Term "__metadata__" t :: rest) qs metadata
      = UnmarshalProtoMetadata.queriesLoop compiles rest qs (metadata ++ [t]) := by
  simp [UnmarshalProtoMetadata.queriesLoop, querypb.Query.GetTerm, fldMetadata]

theorem UnmarshalProtoMetadata.queriesLoop_other (compiles : String → Bool)
    (c : querypb.Query) (hc : c.isSentinel = false) (rest : List querypb.Query)
    (qs : List search.Query) (metadata : List String) :
    UnmarshalProtoMetadata.queriesLoop compiles (c :: rest) qs metadata
      = match UnmarshalProtoMetadata compiles c metadata with
        | .error err => .error err
        | .ok (sqry, md) =>
          UnmarshalProtoMetadata.queriesLoop compiles rest (qs ++ [sqry]) md := by
  cases c <;> simp_all [UnmarshalProtoMetadata.queriesLoop, querypb.Query.GetTerm,
    querypb.Query.isSentinel, fldMetadata]
  intro h; exact absurd h.symm hc

/-! ## Metadata-aware mode: the incoming list is only extended -/

theorem UnmarshalProtoMetadata.queriesLoop_append (compiles : String → Bool)
    (cs : List querypb.Query)
    (h : ∀ c ∈ cs, ∀ md, UnmarshalProtoMetadata compiles c md
      = (UnmarshalProtoMetadata compiles c []).map (fun r => (r.1, md ++ r.2))) :
    ∀ qs md, UnmarshalProtoMetadata.queriesLoop compiles cs qs md
      = (UnmarshalProtoMetadata.queriesLoop compiles cs [] []).map
          (fun r => (qs ++ r.1, md ++ r.2)) := by
  induction cs with
  | nil => intro qs md; simp [UnmarshalProtoMetadata.queriesLoop, Except.map]
  | cons c cs ih =>
    intro qs md
    have hc := h c (List.mem_cons_self c cs)
    have ih := ih (fun x hx => h x (List.mem_cons_of_mem c hx))
    by_cases hs : c.isSentinel = true
    · obtain ⟨t, rfl⟩ := querypb.Query.isSentinel_iff.mp hs
      rw [UnmarshalProtoMetadata.queriesLoop_sentinel,
        UnmarshalProtoMetadata.queriesLoop_sentinel, ih qs (md ++ [t]), ih [] ([] ++ [t])]
      cases UnmarshalProtoMetadata.queriesLoop compiles cs [] [] <;> simp [Except.map]
    · have hs : c.isSentinel = false := by simpa using hs
      rw [UnmarshalProtoMetadata.queriesLoop_other compiles c hs,
        UnmarshalProtoMetadata.queriesLoop_other compiles c hs, hc md]
      cases hd : UnmarshalProtoMetadata compiles c [] with
      | error e => simp [Except.map]
      | ok r =>
        obtain ⟨sq, m0⟩ := r
        simp only [Except.map]
        rw [ih (qs ++ [sq]) (md ++ m0), ih ([] ++ [sq]) m0]
        cases UnmarshalProtoMetadata.queriesLoop compiles cs [] [] <;> simp [Except.map]

theorem UnmarshalProtoMetadata_append (compiles : String → Bool) :
    ∀ (q : querypb.Query) (md : List String),
      UnmarshalProtoMetadata compiles q md
        = (UnmarshalProtoMetadata compiles q []).map (fun r => (r.1, md ++ r.2)) := by
  intro q
  induction q using querypb.Query.wire_induct with
  | nil => intro md; rfl
  | unset => intro md; rfl
  | nilPayload v => intro md; rfl
  | all => intro md; simp [UnmarshalProtoMetadata, Except.map]
  | field f => intro md; simp [UnmarshalProtoMetadata, Except.map]
  | term f t =>
    intro md
    by_cases hf : fldMetadata = f <;> simp [UnmarshalProtoMetadata, Except.map, hf]
  | regexp f r =>
    intro md
    cases hc : compiles r <;> simp [UnmarshalProtoMetadata, NewRegexpQuery, Except.map, hc]
  | negation q ih =>
    intro md
    simp only [UnmarshalProtoMetadata]
    rw [ih md]
    cases UnmarshalProtoMetadata compiles q [] <;> simp [Except.map]
  | conjunction qs ih =>
    intro md
    simp only [UnmarshalProtoMetadata]
    rw [UnmarshalProtoMetadata.queriesLoop_append compiles qs ih [] md]
    cases hl : UnmarshalProtoMetadata.queriesLoop compiles qs [] [] with
    | error e => simp [Except.map]
    | ok r =>
      obtain ⟨l, m⟩ := r
      by_cases hn : l.length = 0 <;> simp [Except.map, hn]
  | disjunction qs ih =>
    intro md
    simp only [UnmarshalProtoMetadata]
    rw [UnmarshalProtoMetadata.queriesLoop_append compiles qs ih [] md]
    cases hl : UnmarshalProtoMetadata.queriesLoop compiles qs [] [] with
    | error e => simp [Except.map]
    | ok r =>
      obtain ⟨l, m⟩ := r
      by_cases hn : l.length = 0 <;> simp [Except.map, hn]

/-! ## Metadata-aware mode: the extracted values -/

theorem UnmarshalProtoMetadata.queriesLoop_metadata (compiles : String → Bool)
    (cs : List querypb.Query)
    (h : ∀ c ∈ cs, ∀ md t md', UnmarshalProtoMetadata compiles c md = .ok (t, md') →
      md' = md ++ c.metadataValues) :
    ∀ qs md qs' md', UnmarshalProtoMetadata.queriesLoop compiles cs qs md = .ok (qs', md') →
      md' = md ++ querypb.Query.metadataValues.concat cs := by
  induction cs with
  | nil =>
    intro qs md qs' md' hl
    simp [UnmarshalProtoMetadata.queriesLoop] at hl
    simp [querypb.Query.metadataValues.concat, hl.2]
  | cons c cs ih =>
    intro qs md qs' md' hl
    have hc := h c (List.mem_cons_self c cs)
    have ih := ih (fun x hx => h x (List.mem_cons_of_mem c hx))
    by_cases hs : c.isSentinel = true
    · obtain ⟨t, rfl⟩ := querypb.Query.isSentinel_iff.mp hs
      rw [UnmarshalProtoMetadata.queriesLoop_sentinel] at hl
      rw [ih _ _ _ _ hl]
      simp [querypb.Query.metadataValues.concat, querypb.Query.metadataValues]
    · have hs : c.isSentinel = false := by simpa using hs
      rw [UnmarshalProtoMetadata.queriesLoop_other compiles c hs] at hl
      cases hd : UnmarshalProtoMetadata compiles c md with
      | error e => simp [hd] at hl
      | ok r =>
        obtain ⟨sq, m1⟩ := r
        simp only [hd] at hl
        rw [ih _ _ _ _ hl, hc md sq m1 hd]
        simp [querypb.Query.metadataValues.concat]

theorem UnmarshalProtoMetadata_metadata (compiles : String → Bool) :
    ∀ (q : querypb.Query) (md : List String) (t : search.Query) (md' : List String),
      UnmarshalProtoMetadata compiles q md = .ok (t, md') →
        md' = md ++ q.metadataValues := by
  intro q
  induction q using querypb.Query.wire_induct with
  | nil => intro md t md' h; simp [UnmarshalProtoMetadata] at h
  | unset => intro md t md' h; simp [UnmarshalProtoMetadata] at h
  | nilPayload v => intro md t md' h; simp [UnmarshalProtoMetadata] at h
  | all =>
    intro md t md' h
    simp [UnmarshalProtoMetadata] at h
    simp [querypb.Query.metadataValues, h.2]
  | field f =>
    intro md t md' h
    simp [UnmarshalProtoMetadata] at h
    simp [querypb.Query.metadataValues, h.2]
  | term f t =>
    intro md t md' h
    by_cases hf : f = "__metadata__"
    · subst hf
      simp [UnmarshalProtoMetadata, fldMetadata] at h
      simp [querypb.Query.metadataValues, h.2]
    · have hf' : ¬ fldMetadata = f := fun e => hf e.symm
      simp [UnmarshalProtoMetadata, hf'] at h
      simp [querypb.Query.metadataValues, hf, h.2]
  | regexp f r =>
    intro md t md' h
    cases hc : compiles r <;>
      simp [UnmarshalProtoMetadata, NewRegexpQuery, hc] at h
    simp [querypb.Query.metadataValues, h.2]
  | negation q ih =>
    intro md t md' h
    simp only [UnmarshalProtoMetadata] at h
    cases hd : UnmarshalProtoMetadata compiles q md with
    | error e => simp [hd] at h
    | ok r =>
      obtain ⟨inner, m1⟩ := r
      simp [hd] at h
      simp [querypb.Query.metadataValues, ← h.2, ih md inner m1 hd]
  | conjunction qs ih =>
    intro md t md' h
    simp only [UnmarshalProtoMetadata] at h
    cases hl : UnmarshalProtoMetadata.queriesLoop compiles qs [] md with
    | error e => simp [hl] at h
    | ok r =>
      obtain ⟨l, m1⟩ := r
      have hm := UnmarshalProtoMetadata.queriesLoop_metadata compiles qs ih _ _ _ _ hl
      by_cases hn : l.length = 0 <;> simp [hl, hn] at h <;>
        simp [querypb.Query.metadataValues, ← h.2, hm]
  | disjunction qs ih =>
    intro md t md' h
    simp only [UnmarshalProtoMetadata] at h
    cases hl : UnmarshalProtoMetadata.queriesLoop compiles qs [] md with
    | error e => simp [hl] at h
    | ok r =>
      obtain ⟨l, m1⟩ := r
      have hm := UnmarshalProtoMetadata.queriesLoop_metadata compiles qs ih _ _ _ _ hl
      by_cases hn : l.length = 0 <;> simp [hl, hn] at h <;>
        simp [querypb.Query.metadataValues, ← h.2, hm]

/-- C4: metadata extraction.  Whenever `UnmarshalMetadata` succeeds, its input
parsed to a wire message and the returned metadata list is the list of the
values of all `Term` nodes with field `"__metadata__"` of that message, at any
depth, each once, in pre-order; for
`Conjunction [Term "tag" "value", Term "__metadata__" "cardinality"]` it is
`["cardinality"]`. -/
theorem UnmarshalMetadata_metadataValues {β : Type} (compiles : String → Bool)
    (pbUnmarshal : β → Except Error querypb.Query) (data : β)
    (tree : search.Query) (md : List String)
    (h : UnmarshalMetadata compiles pbUnmarshal data = .ok (tree, md)) :
    (∃ q, pbUnmarshal data = .ok q ∧ md = q.metadataValues) ∧
    UnmarshalProtoMetadata compiles
        (.Conjunction [.Term "tag" "value", .Term "__metadata__" "cardinality"]) []
      = .ok (.Conjunction [.Term "tag" "value"], ["cardinality"]) := by
  refine ⟨?_, by rfl⟩
  unfold UnmarshalMetadata at h
  cases hp : pbUnmarshal data with
  | error e => simp [hp] at h
  | ok q =>
    simp only [hp] at h
    exact ⟨q, rfl, by simpa using UnmarshalProtoMetadata_metadata compiles q [] tree md h⟩

theorem UnmarshalMetadata_metadataValues_witness :
    UnmarshalMetadata (fun _ => true) Except.ok
        (querypb.Query.Disjunction [.Term "__metadata__" "a",
          .Negation (.Term "__metadata__" "b"),
          .Conjunction [.Term "tag" "value", .Term "__metadata__" "c"]])
      = .ok (.Disjunction [.Negation .All, .Conjunction [.Term "tag" "value"]],
          ["a", "b", "c"]) ∧
    ((∃ q, (Except.ok (querypb.Query.Disjunction [.Term "__metadata__" "a",
          .Negation (.Term "__metadata__" "b"),
          .Conjunction [.Term "tag" "value", .Term "__metadata__" "c"]]) :
          Except Error querypb.Query) = .ok q ∧ ["a", "b", "c"] = q.metadataValues) ∧
    UnmarshalProtoMetadata (fun _ => true)
        (.Conjunction [.Term "tag" "value", .Term "__metadata__" "cardinality"]) []
      = .ok (.Conjunction [.Term "tag" "value"], ["cardinality"])) :=
  ⟨by rfl, UnmarshalMetadata_metadataValues (fun _ => true) Except.ok _ _ _ (by rfl)⟩

/-! ## Metadata-aware mode: sentinel children of a boolean node -/

theorem UnmarshalProtoMetadata_from_nil (compiles : String → Bool)
    {q : querypb.Query} {md md' : List String} {t : search.Query}
    (h : UnmarshalProtoMetadata compiles q md = .ok (t, md')) :
    ∃ m, UnmarshalProtoMetadata compiles q [] = .ok (t, m) := by
  rw [UnmarshalProtoMetadata_append compiles q md] at h
  cases hd : UnmarshalProtoMetadata compiles q [] with
  | error e => simp [hd, Except.map] at h
  | ok r =>
    obtain ⟨t0, m0⟩ := r
    simp [hd, Except.map] at h
    exact ⟨m0, by rw [h.1]⟩

theorem UnmarshalProtoMetadata.queriesLoop_children (compiles : String → Bool)
    (cs : List querypb.Query) :
    ∀ qs md qs' md', UnmarshalProtoMetadata.queriesLoop compiles cs qs md = .ok (qs', md') →
      ∃ l, qs' = qs ++ l ∧
        List.Forall₂ (fun c q => ∃ m, UnmarshalProtoMetadata compiles c [] = .ok (q, m))
          (cs.filter (fun c => !c.isSentinel)) l := by
  induction cs with
  | nil =>
    intro qs md qs' md' hl
    simp [UnmarshalProtoMetadata.queriesLoop] at hl
    exact ⟨[], by simp [hl.1]⟩
  | cons c cs ih =>
    intro qs md qs' md' hl
    by_cases hs : c.isSentinel = true
    · obtain ⟨t, rfl⟩ := querypb.Query.isSentinel_iff.mp hs
      rw [UnmarshalProtoMetadata.queriesLoop_sentinel] at hl
      obtain ⟨l, hl1, hl2⟩ := ih _ _ _ _ hl
      exact ⟨l, hl1, by simpa [List.filter_cons, hs] using hl2⟩
    · have hs' : c.isSentinel = false := by simpa using hs
      rw [UnmarshalProtoMetadata.queriesLoop_other compiles c hs'] at hl
      cases hd : UnmarshalProtoMetadata compiles c md with
      | error e => simp [hd] at hl
      | ok r =>
        obtain ⟨sq, m1⟩ := r
        simp only [hd] at hl
        obtain ⟨l, hl1, hl2⟩ := ih _ _ _ _ hl
        refine ⟨sq :: l, by simp [hl1], ?_⟩
        simpa [List.filter_cons, hs] using
          ⟨UnmarshalProtoMetadata_from_nil compiles hd, hl2⟩

theorem UnmarshalProtoMetadata.queriesLoop_ne_nil (compiles : String → Bool)
    (cs : List querypb.Query) (hne : ∃ c ∈ cs, c.isSentinel = false)
    (md : List String) (l : List search.Query) (md' : List String)
    (hl : UnmarshalProtoMetadata.queriesLoop compiles cs [] md = .ok (l, md')) :
    l.length ≠ 0 ∧
      List.Forall₂ (fun c q => ∃ m, UnmarshalProtoMetadata compiles c [] = .ok (q, m))
        (cs.filter (fun c => !c.isSentinel)) l := by
  obtain ⟨l', hl1, hl2⟩ := UnmarshalProtoMetadata.queriesLoop_children compiles cs _ _ _ _ hl
  simp only [List.nil_append] at hl1
  subst hl1
  refine ⟨?_, hl2⟩
  rw [← hl2.length_eq]
  obtain ⟨c, hc, hs⟩ := hne
  have : c ∈ cs.filter (fun c => !c.isSentinel) := by simp [List.mem_filter, hc, hs]
  exact List.length_pos_of_mem this |>.ne.symm

/-- C5 as the claim states it fails: the sentinel child of
`Conjunction [Term "tag" "value", Term "__metadata__" "cardinality"]` is not
replaced by `All`; the decoded Conjunction has one child, not two. -/
theorem UnmarshalProtoMetadata_no_All_in_place :
    UnmarshalProtoMetadata (fun _ => true)
        (.Conjunction [.Term "tag" "value", .Term "__metadata__" "cardinality"]) []
      = .ok (.Conjunction [.Term "tag" "value"], ["cardinality"]) ∧
    UnmarshalProtoMetadata (fun _ => true)
        (.Conjunction [.Term "tag" "value", .Term "__metadata__" "cardinality"]) []
      ≠ .ok (.Conjunction [.Term "tag" "value", .All], ["cardinality"]) ∧
    ¬ ∃ qs md, UnmarshalProtoMetadata (fun _ => true)
        (.Conjunction [.Term "tag" "value", .Term "__metadata__" "cardinality"]) []
          = .ok (.Conjunction qs, md) ∧
        qs.length = [querypb.Query.Term "tag" "value",
          .Term "__metadata__" "cardinality"].length := by
  have h : UnmarshalProtoMetadata (fun _ => true)
        (.Conjunction [.Term "tag" "value", .Term "__metadata__" "cardinality"]) []
      = .ok (.Conjunction [.Term "tag" "value"], ["cardinality"]) := by rfl
  refine ⟨h, ?_, ?_⟩
  · rw [h]; simp
  · rintro ⟨qs, md, hq, hlen⟩
    rw [h] at hq
    simp only [Except.ok.injEq, Prod.mk.injEq, search.Query.Conjunction.injEq] at hq
    rw [← hq.1] at hlen
    simp at hlen

/-- C5, amended: for every wire Conjunction or Disjunction that has at least
one non-sentinel child and decodes successfully, `UnmarshalProtoMetadata`
returns a boolean node of the same kind whose children are the metadata-aware
decodings of the non-sentinel direct children only, in order (a direct child
that is a `Term` with field `"__metadata__"` is dropped, not replaced), and the
incoming metadata extended by the sentinel values of the node;
`Conjunction [Term "tag" "value", Term "__metadata__" "cardinality"]` decodes
to `Conjunction [Term "tag" "value"]` with metadata `["cardinality"]`. -/
theorem UnmarshalProtoMetadata_boolean_drops (compiles : String → Bool)
    (cs : List querypb.Query) (md : List String) (t : search.Query)
    (md' : List String) (hne : ∃ c ∈ cs, c.isSentinel = false) :
    (UnmarshalProtoMetadata compiles (.Conjunction cs) md = .ok (t, md') →
      ∃ qs, t = .Conjunction qs ∧
        List.Forall₂ (fun c q => ∃ m, UnmarshalProtoMetadata compiles c [] = .ok (q, m))
          (cs.filter (fun c => !c.isSentinel)) qs ∧
        md' = md ++ (querypb.Query.Conjunction cs).metadataValues) ∧
    (UnmarshalProtoMetadata compiles (.Disjunction cs) md = .ok (t, md') →
      ∃ qs, t = .Disjunction qs ∧
        List.Forall₂ (fun c q => ∃ m, UnmarshalProtoMetadata compiles c [] = .ok (q, m))
          (cs.filter (fun c => !c.isSentinel)) qs ∧
        md' = md ++ (querypb.Query.Disjunction cs).metadataValues) ∧
    UnmarshalProtoMetadata compiles
        (.Conjunction [.Term "tag" "value", .Term "__metadata__" "cardinality"]) []
      = .ok (.Conjunction [.Term "tag" "value"], ["cardinality"]) := by
  refine ⟨?_, ?_, by rfl⟩
  · intro h
    have hm := UnmarshalProtoMetadata_metadata compiles _ _ _ _ h
    simp only [UnmarshalProtoMetadata] at h
    cases hl : UnmarshalProtoMetadata.queriesLoop compiles cs [] md with
    | error e => simp [hl] at h
    | ok r =>
      obtain ⟨l, m1⟩ := r
      obtain ⟨hn, hf⟩ := UnmarshalProtoMetadata.queriesLoop_ne_nil compiles cs hne _ _ _ hl
      simp [hl, hn, NewConjunctionQuery] at h
      exact ⟨l, h.1.symm, hf, hm⟩
  · intro h
    have hm := UnmarshalProtoMetadata_metadata compiles _ _ _ _ h
    simp only [UnmarshalProtoMetadata] at h
    cases hl : UnmarshalProtoMetadata.queriesLoop compiles cs [] md with
    | error e => simp [hl] at h
    | ok r =>
      obtain ⟨l, m1⟩ := r
      obtain ⟨hn, hf⟩ := UnmarshalProtoMetadata.queriesLoop_ne_nil compiles cs hne _ _ _ hl
      simp [hl, hn, NewDisjunctionQuery] at h
      exact ⟨l, h.1.symm, hf, hm⟩

theorem UnmarshalProtoMetadata_boolean_drops_witness :
    (∃ c ∈ [querypb.Query.Term "__metadata__" "a", .Negation (.Term "__metadata__" "b"),
        .Term "__metadata__" "c"], c.isSentinel = false) ∧
    UnmarshalProtoMetadata (fun _ => true)
        (.Conjunction [.Term "__metadata__" "a", .Negation (.Term "__metadata__" "b"),
          .Term "__metadata__" "c"]) ["z"]
      = .ok (.Conjunction [.Negation .All], ["z", "a", "b", "c"]) ∧
    (∃ qs, search.Query.Conjunction [.Negation .All] = .Conjunction qs ∧
        List.Forall₂
          (fun c q => ∃ m, UnmarshalProtoMetadata (fun _ => true) c [] = .ok (q, m))
          ([querypb.Query.Term "__metadata__" "a", .Negation (.Term "__metadata__" "b"),
            .Term "__metadata__" "c"].filter (fun c => !c.isSentinel)) qs ∧
        ["z", "a", "b", "c"] = ["z"] ++ (querypb.Query.Conjunction
          [.Term "__metadata__" "a", .Negation (.Term "__metadata__" "b"),
            .Term "__metadata__" "c"]).metadataValues) :=
  ⟨⟨.Negation (.Term "__metadata__" "b"), by simp, by rfl⟩, by rfl,
    (UnmarshalProtoMetadata_boolean_drops (fun _ => true)
      [.Term "__metadata__" "a", .Negation (.Term "__metadata__" "b"),
        .Term "__metadata__" "c"] ["z"] (.Conjunction [.Negation .All])
      ["z", "a", "b", "c"]
      ⟨.Negation (.Term "__metadata__" "b"), by simp, by rfl⟩).1 (by rfl)⟩

/-! ## Metadata-aware mode: a boolean node of sentinels only -/

theorem UnmarshalProtoMetadata.queriesLoop_sentinels (compiles : String → Bool)
    (vs : List String) :
    ∀ qs md, UnmarshalProtoMetadata.queriesLoop compiles
        (vs.map (fun v => querypb.Query.Term "__metadata__" v)) qs md
      = .ok (qs, md ++ vs) := by
  induction vs with
  | nil => intro qs md; simp [UnmarshalProtoMetadata.queriesLoop]
  | cons v vs ih =>
    intro qs md
    rw [List.map_cons, UnmarshalProtoMetadata.queriesLoop_sentinel, ih]
    simp

/-- C6: all-sentinel collapse.  A wire Conjunction or Disjunction whose direct
children are all `Term`s with field `"__metadata__"`, with values `vs` in
order, decodes under `UnmarshalProtoMetadata` to a bare `All` node (not to an
empty Conjunction or Disjunction) together with the incoming metadata list
extended by `vs`. -/
theorem UnmarshalProtoMetadata_all_sentinels (compiles : String → Bool)
    (vs : List String) (md : List String) :
    UnmarshalProtoMetadata compiles
        (.Conjunction (vs.map (fun v => querypb.Query.Term "__metadata__" v))) md
      = .ok (.All, md ++ vs) ∧
    UnmarshalProtoMetadata compiles
        (.Disjunction (vs.map (fun v => querypb.Query.Term "__metadata__" v))) md
      = .ok (.All, md ++ vs) := by
  constructor <;>
    simp [UnmarshalProtoMetadata, UnmarshalProtoMetadata.queriesLoop_sentinels,
      NewAllQuery]

/-! ## Metadata-aware mode: no sentinel in the decoded tree -/

theorem forall₂_exists_of_mem_right {α β : Type} {R : α → β → Prop}
    {l₁ : List α} {l₂ : List β} (h : List.Forall₂ R l₁ l₂) :
    ∀ b ∈ l₂, ∃ a ∈ l₁, R a b := by
  induction h with
  | nil => intro b hb; exact absurd hb (List.not_mem_nil b)
  | cons hab _ ih =>
    intro b hb
    rcases List.mem_cons.mp hb with rfl | hb
    · exact ⟨_, List.mem_cons_self _ _, hab⟩
    · obtain ⟨a, ha, hr⟩ := ih b hb
      exact ⟨a, List.mem_cons_of_mem _ ha, hr⟩

theorem UnmarshalProtoMetadata.queriesLoop_hasSentinel (compiles : String → Bool)
    (cs : List querypb.Query)
    (h : ∀ c ∈ cs, ∀ md t md', UnmarshalProtoMetadata compiles c md = .ok (t, md') →
      t.hasSentinel = false)
    (md : List String) (l : List search.Query) (md' : List String)
    (hl : UnmarshalProtoMetadata.queriesLoop compiles cs [] md = .ok (l, md')) :
    search.Query.hasSentinel.any l = false := by
  obtain ⟨l', hl1, hl2⟩ := UnmarshalProtoMetadata.queriesLoop_children compiles cs _ _ _ _ hl
  simp only [List.nil_append] at hl1
  subst hl1
  rw [search.Query.hasSentinel.tree_any_eq_false]
  intro q hq
  obtain ⟨c, hc, m, hm⟩ := forall₂_exists_of_mem_right hl2 q hq
  exact h c (List.mem_of_mem_filter hc) _ _ _ hm

theorem UnmarshalProtoMetadata_hasSentinel (compiles : String → Bool) :
    ∀ (q : querypb.Query) (md : List String) (t : search.Query) (md' : List String),
      UnmarshalProtoMetadata compiles q md = .ok (t, md') → t.hasSentinel = false := by
  intro q
  induction q using querypb.Query.wire_induct with
  | nil => intro md t md' h; simp [UnmarshalProtoMetadata] at h
  | unset => intro md t md' h; simp [UnmarshalProtoMetadata] at h
  | nilPayload v => intro md t md' h; simp [UnmarshalProtoMetadata] at h
  | all =>
    intro md t md' h
    simp [UnmarshalProtoMetadata, NewAllQuery] at h
    simp [← h.1, search.Query.hasSentinel]
  | field f =>
    intro md t md' h
    simp [UnmarshalProtoMetadata, NewFieldQuery] at h
    simp [← h.1, search.Query.hasSentinel]
  | term f v =>
    intro md t md' h
    by_cases hf : fldMetadata = f
    · simp [UnmarshalProtoMetadata, NewAllQuery, hf] at h
      simp [← h.1, search.Query.hasSentinel]
    · simp [UnmarshalProtoMetadata, NewTermQuery, hf] at h
      have hf' : ¬ f = "__metadata__" := fun e => hf e.symm
      simp [← h.1, search.Query.hasSentinel, hf']
  | regexp f r =>
    intro md t md' h
    cases hc : compiles r <;>
      simp [UnmarshalProtoMetadata, NewRegexpQuery, hc] at h
    simp [← h.1, search.Query.hasSentinel]
  | negation q ih =>
    intro md t md' h
    simp only [UnmarshalProtoMetadata] at h
    cases hd : UnmarshalProtoMetadata compiles q md with
    | error e => simp [hd] at h
    | ok r =>
      obtain ⟨inner, m1⟩ := r
      simp [hd, NewNegationQuery] at h
      simp [← h.1, search.Query.hasSentinel, ih md inner m1 hd]
  | conjunction qs ih =>
    intro md t md' h
    simp only [UnmarshalProtoMetadata] at h
    cases hl : UnmarshalProtoMetadata.queriesLoop compiles qs [] md with
    | error e => simp [hl] at h
    | ok r =>
      obtain ⟨l, m1⟩ := r
      have hs := UnmarshalProtoMetadata.queriesLoop_hasSentinel compiles qs ih _ _ _ hl
      by_cases hn : l.length = 0 <;>
        simp [hl, hn, NewAllQuery, NewConjunctionQuery] at h <;>
        simp [← h.1, search.Query.hasSentinel, hs]
  | disjunction qs ih =>
    intro md t md' h
    simp only [UnmarshalProtoMetadata] at h
    cases hl : UnmarshalProtoMetadata.queriesLoop compiles qs [] md with
    | error e => simp [hl] at h
    | ok r =>
      obtain ⟨l, m1⟩ := r
      have hs := UnmarshalProtoMetadata.queriesLoop_hasSentinel compiles qs ih _ _ _ hl
      by_cases hn : l.length = 0 <;>
        simp [hl, hn, NewAllQuery, NewDisjunctionQuery] at h <;>
        simp [← h.1, search.Query.hasSentinel, hs]

/-- C7: sentinels never survive metadata-aware decode.  Whenever
`UnmarshalProtoMetadata` succeeds, the returned query tree contains, at no
depth, a `Term` node whose field is `"__metadata__"`. -/
theorem UnmarshalProtoMetadata_no_sentinel_survives (compiles : String → Bool)
    (q : querypb.Query) (md : List String) (tree : search.Query) (md' : List String)
    (h : UnmarshalProtoMetadata compiles q md = .ok (tree, md')) :
    tree.hasSentinel = false :=
  UnmarshalProtoMetadata_hasSentinel compiles q md tree md' h

theorem UnmarshalProtoMetadata_no_sentinel_survives_witness :
    UnmarshalProtoMetadata (fun _ => true)
        (.Disjunction [.Negation (.Term "__metadata__" "b"),
          .Conjunction [.Term "__metadata__" "c", .Regexp "host" "a.*"],
          .Term "__metadata__" "d"]) ["z"]
      = .ok (.Disjunction [.Negation .All, .Conjunction [.Regexp "host" "a.*"]],
          ["z", "b", "c", "d"]) ∧
    (search.Query.Disjunction
        [.Negation .All, .Conjunction [.Regexp "host" "a.*"]]).hasSentinel = false :=
  ⟨by rfl, UnmarshalProtoMetadata_no_sentinel_survives (fun _ => true)
    (.Disjunction [.Negation (.Term "__metadata__" "b"),
      .Conjunction [.Term "__metadata__" "c", .Regexp "host" "a.*"],
      .Term "__metadata__" "d"]) ["z"] _ ["z", "b", "c", "d"] (by rfl)⟩

/-! ## The two modes on messages without sentinels -/

theorem querypb.Query.isSentinel_of_hasSentinel {c : querypb.Query}
    (h : c.hasSentinel = false) : c.isSentinel = false := by
  cases c <;> simp_all [querypb.Query.hasSentinel, querypb.Query.isSentinel]

theorem UnmarshalProto.conjunctionLoop_sentinel (compiles : String → Bool)
    (t : String) (rest : List querypb.Query) (qs : List search.Query) :
    UnmarshalProto.conjunctionLoop compiles (.Term "__metadata__" t :: rest) qs
      = UnmarshalProto.conjunctionLoop compiles rest qs := by
  simp [UnmarshalProto.conjunctionLoop, querypb.Query.GetTerm]

theorem UnmarshalProto.conjunctionLoop_other (compiles : String → Bool)
    (c : querypb.Query) (hc : c.isSentinel = false) (rest : List querypb.Query)
    (qs : List search.Query) :
    UnmarshalProto.conjunctionLoop compiles (c :: rest) qs
      = match UnmarshalProto compiles c with
        | .error err => .error err
        | .ok sqry => UnmarshalProto.conjunctionLoop compiles rest (qs ++ [sqry]) := by
  cases c <;> simp_all [UnmarshalProto.conjunctionLoop, querypb.Query.GetTerm,
    querypb.Query.isSentinel]

theorem UnmarshalProto.disjunctionLoop_length (compiles : String → Bool)
    (cs : List querypb.Query) :
    ∀ qs r, UnmarshalProto.disjunctionLoop compiles cs qs = .ok r →
      r.length = qs.length + cs.length := by
  induction cs with
  | nil => intro qs r h; simp [UnmarshalProto.disjunctionLoop] at h; simp [h]
  | cons c cs ih =>
    intro qs r h
    simp only [UnmarshalProto.disjunctionLoop] at h
    cases hd : UnmarshalProto compiles c with
    | error e => simp [hd] at h
    | ok s =>
      simp only [hd] at h
      rw [ih _ _ h]
      simp; omega

theorem UnmarshalProto.conjunctionLoop_eq_disjunctionLoop (compiles : String → Bool)
    (cs : List querypb.Query) (hs : ∀ c ∈ cs, c.isSentinel = false) :
    ∀ qs, UnmarshalProto.conjunctionLoop compiles cs qs
      = UnmarshalProto.disjunctionLoop compiles cs qs := by
  induction cs with
  | nil => intro qs; simp [UnmarshalProto.conjunctionLoop, UnmarshalProto.disjunctionLoop]
  | cons c cs ih =>
    intro qs
    have ih := ih (fun x hx => hs x (List.mem_cons_of_mem c hx))
    rw [UnmarshalProto.conjunctionLoop_other compiles c (hs c (List.mem_cons_self c cs))]
    simp only [UnmarshalProto.disjunctionLoop]
    cases UnmarshalProto compiles c <;> simp [ih]

theorem UnmarshalProtoMetadata.queriesLoop_eq_disjunctionLoop (compiles : String → Bool)
    (cs : List querypb.Query) (hs : ∀ c ∈ cs, c.isSentinel = false)
    (h : ∀ c ∈ cs, ∀ md, UnmarshalProtoMetadata compiles c md
      = (UnmarshalProto compiles c).map (fun t => (t, md))) :
    ∀ qs md, UnmarshalProtoMetadata.queriesLoop compiles cs qs md
      = (UnmarshalProto.disjunctionLoop compiles cs qs).map (fun l => (l, md)) := by
  induction cs with
  | nil =>
    intro qs md
    simp [UnmarshalProtoMetadata.queriesLoop, UnmarshalProto.disjunctionLoop, Except.map]
  | cons c cs ih =>
    intro qs md
    have ih := ih (fun x hx => hs x (List.mem_cons_of_mem c hx))
      (fun x hx => h x (List.mem_cons_of_mem c hx))
    rw [UnmarshalProtoMetadata.queriesLoop_other compiles c
      (hs c (List.mem_cons_self c cs)), h c (List.mem_cons_self c cs) md]
    simp only [UnmarshalProto.disjunctionLoop]
    cases UnmarshalProto compiles c <;> simp [Except.map, ih]

theorem UnmarshalProtoMetadata_eq_UnmarshalProto (compiles : String → Bool) :
    ∀ q : querypb.Query, q.hasSentinel = false → q.booleansNonEmpty = true →
      ∀ md, UnmarshalProtoMetadata compiles q md
        = (UnmarshalProto compiles q).map (fun t => (t, md)) := by
  intro q
  induction q using querypb.Query.wire_induct with
  | nil => intro _ _ md; rfl
  | unset => intro _ _ md; rfl
  | nilPayload v => intro _ _ md; rfl
  | all => intro _ _ md; rfl
  | field f => intro _ _ md; rfl
  | term f t =>
    intro hs _ md
    have hf : ¬ fldMetadata = f := by
      intro e
      simp [querypb.Query.hasSentinel, ← e, fldMetadata] at hs
    simp [UnmarshalProtoMetadata, UnmarshalProto, Except.map, hf]
  | regexp f r =>
    intro _ _ md
    cases hc : compiles r <;>
      simp [UnmarshalProtoMetadata, UnmarshalProto, NewRegexpQuery, Except.map, hc]
  | negation q ih =>
    intro hs hb md
    simp only [querypb.Query.hasSentinel, querypb.Query.booleansNonEmpty] at hs hb
    simp only [UnmarshalProtoMetadata, UnmarshalProto, ih hs hb md]
    cases UnmarshalProto compiles q <;> simp [Except.map]
  | conjunction qs ih =>
    intro hs hb md
    simp only [querypb.Query.hasSentinel, querypb.Query.booleansNonEmpty,
      Bool.and_eq_true, querypb.Query.hasSentinel.wire_any_eq_false,
      querypb.Query.booleansNonEmpty.booleans_all_eq_true] at hs hb
    have hsent : ∀ c ∈ qs, c.isSentinel = false :=
      fun c hc => querypb.Query.isSentinel_of_hasSentinel (hs c hc)
    simp only [UnmarshalProtoMetadata, UnmarshalProto]
    rw [UnmarshalProtoMetadata.queriesLoop_eq_disjunctionLoop compiles qs hsent
        (fun c hc => ih c hc (hs c hc) (hb.2 c hc)),
      UnmarshalProto.conjunctionLoop_eq_disjunctionLoop compiles qs hsent]
    cases hd : UnmarshalProto.disjunctionLoop compiles qs [] with
    | error e => simp [Except.map]
    | ok l =>
      have hlen := UnmarshalProto.disjunctionLoop_length compiles qs _ _ hd
      have hne : qs.length ≠ 0 := by
        intro e
        have := hb.1
        simp [List.length_eq_zero.mp e] at this
      have hn : ¬ l.length = 0 := by simp at hlen; omega
      simp [Except.map, hn]
  | disjunction qs ih =>
    intro hs hb md
    simp only [querypb.Query.hasSentinel, querypb.Query.booleansNonEmpty,
      Bool.and_eq_true, querypb.Query.hasSentinel.wire_any_eq_false,
      querypb.Query.booleansNonEmpty.booleans_all_eq_true] at hs hb
    have hsent : ∀ c ∈ qs, c.isSentinel = false :=
      fun c hc => querypb.Query.isSentinel_of_hasSentinel (hs c hc)
    simp only [UnmarshalProtoMetadata, UnmarshalProto]
    rw [UnmarshalProtoMetadata.queriesLoop_eq_disjunctionLoop compiles qs hsent
        (fun c hc => ih c hc (hs c hc) (hb.2 c hc))]
    cases hd : UnmarshalProto.disjunctionLoop compiles qs [] with
    | error e => simp [Except.map]
    | ok l =>
      have hlen := UnmarshalProto.disjunctionLoop_length compiles qs _ _ hd
      have hne : qs.length ≠ 0 := by
        intro e
        have := hb.1
        simp [List.length_eq_zero.mp e] at this
      have hn : ¬ l.length = 0 := by simp at hlen; omega
      simp [Except.map, hn]

/-- C8 as the claim states it fails: the empty wire Conjunction contains no
`Term` at all, `UnmarshalProto` decodes it to the empty Conjunction and
`UnmarshalProtoMetadata` to `All`. -/
theorem modes_differ_on_empty_Conjunction :
    (querypb.Query.Conjunction []).hasSentinel = false ∧
    UnmarshalProto (fun _ => true) (.Conjunction []) = .ok (.Conjunction []) ∧
    UnmarshalProtoMetadata (fun _ => true) (.Conjunction []) [] = .ok (.All, []) ∧
    ¬ ∃ t md, UnmarshalProto (fun _ => true) (.Conjunction []) = .ok t ∧
      UnmarshalProtoMetadata (fun _ => true) (.Conjunction []) [] = .ok (t, md) := by
  have h1 : UnmarshalProto (fun _ => true) (.Conjunction []) = .ok (.Conjunction []) := by
    rfl
  have h2 : UnmarshalProtoMetadata (fun _ => true) (.Conjunction []) []
      = .ok (.All, []) := by rfl
  refine ⟨by rfl, h1, h2, ?_⟩
  rintro ⟨t, md, ht, hm⟩
  rw [h1] at ht
  rw [h2] at hm
  simp only [Except.ok.injEq, Prod.mk.injEq] at ht hm
  rw [← ht] at hm
  exact absurd hm.1 (by simp)

/-- C8, amended: mode consistency.  For every wire message that contains no
`Term` with field `"__metadata__"` at any depth and in which every Conjunction
and Disjunction has at least one child, `UnmarshalProto` and
`UnmarshalProtoMetadata` started with an empty list either both fail (with the
same error) or both succeed with the same query tree, and the metadata-aware
mode returns an empty metadata list. -/
theorem modes_agree_without_sentinels (compiles : String → Bool)
    (q : querypb.Query) (hs : q.hasSentinel = false)
    (hb : q.booleansNonEmpty = true) :
    UnmarshalProtoMetadata compiles q []
      = (UnmarshalProto compiles q).map (fun t => (t, [])) :=
  UnmarshalProtoMetadata_eq_UnmarshalProto compiles q hs hb []

theorem modes_agree_without_sentinels_witness :
    (querypb.Query.Conjunction [.Term "tag" "value",
        .Disjunction [.Negation (.Regexp "host" "a.*"), .Field "dc"]]).hasSentinel = false ∧
    (querypb.Query.Conjunction [.Term "tag" "value",
        .Disjunction [.Negation (.Regexp "host" "a.*"), .Field "dc"]]).booleansNonEmpty
      = true ∧
    UnmarshalProtoMetadata (fun _ => true)
        (.Conjunction [.Term "tag" "value",
          .Disjunction [.Negation (.Regexp "host" "a.*"), .Field "dc"]]) []
      = (UnmarshalProto (fun _ => true)
          (.Conjunction [.Term "tag" "value",
            .Disjunction [.Negation (.Regexp "host" "a.*"), .Field "dc"]])).map
          (fun t => (t, [])) :=
  ⟨by rfl, by rfl, modes_agree_without_sentinels (fun _ => true) _ (by rfl) (by rfl)⟩

/-! ## Errors and panics -/

theorem querypb.Query.hasNil.wire_any_nil_eq_false {l : List querypb.Query} :
    querypb.Query.hasNil.any l = false ↔ ∀ q ∈ l, q.hasNil = false := by
  induction l with
  | nil => simp [querypb.Query.hasNil.any]
  | cons a l ih => simp [querypb.Query.hasNil.any, ih]

theorem UnmarshalProto.disjunctionLoop_outcome (compiles : String → Bool)
    (cs : List querypb.Query)
    (h : ∀ c ∈ cs, (UnmarshalProto compiles c).isOk = !c.hasInvalid compiles ∧
      UnmarshalProto compiles c ≠ .error .panicked) :
    ∀ qs, (UnmarshalProto.disjunctionLoop compiles cs qs).isOk
        = !querypb.Query.hasInvalid.any compiles cs ∧
      UnmarshalProto.disjunctionLoop compiles cs qs ≠ .error .panicked := by
  induction cs with
  | nil =>
    intro qs
    simp [UnmarshalProto.disjunctionLoop, querypb.Query.hasInvalid.any, Except.isOk,
      Except.toBool]
  | cons c cs ih =>
    intro qs
    have hc := h c (List.mem_cons_self c cs)
    have ih := ih (fun x hx => h x (List.mem_cons_of_mem c hx))
    simp only [UnmarshalProto.disjunctionLoop, querypb.Query.hasInvalid.any]
    cases hd : UnmarshalProto compiles c with
    | error e =>
      simp [hd, Except.isOk, Except.toBool] at hc
      simp [hc, Except.isOk, Except.toBool]
    | ok s =>
      simp [hd, Except.isOk, Except.toBool] at hc
      simpa [hc] using ih (qs ++ [s])

theorem UnmarshalProto.conjunctionLoop_outcome (compiles : String → Bool)
    (cs : List querypb.Query)
    (h : ∀ c ∈ cs, (UnmarshalProto compiles c).isOk = !c.hasInvalid compiles ∧
      UnmarshalProto compiles c ≠ .error .panicked) :
    ∀ qs, (UnmarshalProto.conjunctionLoop compiles cs qs).isOk
        = !querypb.Query.hasInvalid.any compiles cs ∧
      UnmarshalProto.conjunctionLoop compiles cs qs ≠ .error .panicked := by
  induction cs with
  | nil =>
    intro qs
    simp [UnmarshalProto.conjunctionLoop, querypb.Query.hasInvalid.any, Except.isOk,
      Except.toBool]
  | cons c cs ih =>
    intro qs
    have hc := h c (List.mem_cons_self c cs)
    have ih := ih (fun x hx => h x (List.mem_cons_of_mem c hx))
    by_cases hs : c.isSentinel = true
    · obtain ⟨t, rfl⟩ := querypb.Query.isSentinel_iff.mp hs
      rw [UnmarshalProto.conjunctionLoop_sentinel]
      simpa [querypb.Query.hasInvalid.any, querypb.Query.hasInvalid] using ih qs
    · have hs : c.isSentinel = false := by simpa using hs
      rw [UnmarshalProto.conjunctionLoop_other compiles c hs]
      simp only [querypb.Query.hasInvalid.any]
      cases hd : UnmarshalProto compiles c with
      | error e =>
        simp [hd, Except.isOk, Except.toBool] at hc
        simp [hc, Except.isOk, Except.toBool]
      | ok s =>
        simp [hd, Except.isOk, Except.toBool] at hc
        simpa [hc] using ih (qs ++ [s])

theorem UnmarshalProto_outcome (compiles : String → Bool) :
    ∀ q : querypb.Query, q.hasNil = false →
      (UnmarshalProto compiles q).isOk = !q.hasInvalid compiles ∧
        UnmarshalProto compiles q ≠ .error .panicked := by
  intro q
  induction q using querypb.Query.wire_induct with
  | nil => intro h; simp [querypb.Query.hasNil] at h
  | unset =>
    intro _
    simp [UnmarshalProto, querypb.Query.hasInvalid, Except.isOk, Except.toBool]
  | nilPayload v => intro h; simp [querypb.Query.hasNil] at h
  | all =>
    intro _
    simp [UnmarshalProto, querypb.Query.hasInvalid, Except.isOk, Except.toBool]
  | field f =>
    intro _
    simp [UnmarshalProto, querypb.Query.hasInvalid, Except.isOk, Except.toBool]
  | term f t =>
    intro _
    simp [UnmarshalProto, querypb.Query.hasInvalid, Except.isOk, Except.toBool]
  | regexp f r =>
    intro _
    cases hc : compiles r <;>
      simp [UnmarshalProto, NewRegexpQuery, querypb.Query.hasInvalid, hc, Except.isOk,
        Except.toBool]
  | negation q ih =>
    intro h
    simp only [querypb.Query.hasNil] at h
    have ih := ih h
    simp only [UnmarshalProto, querypb.Query.hasInvalid]
    cases hd : UnmarshalProto compiles q with
    | error e =>
      simp [hd, Except.isOk, Except.toBool] at ih
      simp [ih, Except.isOk, Except.toBool]
    | ok s =>
      simp [hd, Except.isOk, Except.toBool] at ih
      simp [ih, Except.isOk, Except.toBool]
  | conjunction qs ih =>
    intro h
    simp only [querypb.Query.hasNil, querypb.Query.hasNil.wire_any_nil_eq_false] at h
    have hl := UnmarshalProto.conjunctionLoop_outcome compiles qs
      (fun c hc => ih c hc (h c hc)) []
    simp only [UnmarshalProto, querypb.Query.hasInvalid]
    cases hd : UnmarshalProto.conjunctionLoop compiles qs [] with
    | error e =>
      simp [hd, Except.isOk, Except.toBool] at hl
      simp [hl, Except.isOk, Except.toBool]
    | ok s =>
      simp [hd, Except.isOk, Except.toBool] at hl
      simp [hl, Except.isOk, Except.toBool]
  | disjunction qs ih =>
    intro h
    simp only [querypb.Query.hasNil, querypb.Query.hasNil.wire_any_nil_eq_false] at h
    have hl := UnmarshalProto.disjunctionLoop_outcome compiles qs
      (fun c hc => ih c hc (h c hc)) []
    simp only [UnmarshalProto, querypb.Query.hasInvalid]
    cases hd : UnmarshalProto.disjunctionLoop compiles qs [] with
    | error e =>
      simp [hd, Except.isOk, Except.toBool] at hl
      simp [hl, Except.isOk, Except.toBool]
    | ok s =>
      simp [hd, Except.isOk, Except.toBool] at hl
      simp [hl, Except.isOk, Except.toBool]

theorem UnmarshalProtoMetadata.queriesLoop_outcome (compiles : String → Bool)
    (cs : List querypb.Query)
    (h : ∀ c ∈ cs, ∀ md,
      (UnmarshalProtoMetadata compiles c md).isOk = !c.hasInvalid compiles ∧
        UnmarshalProtoMetadata compiles c md ≠ .error .panicked) :
    ∀ qs md, (UnmarshalProtoMetadata.queriesLoop compiles cs qs md).isOk
        = !querypb.Query.hasInvalid.any compiles cs ∧
      UnmarshalProtoMetadata.queriesLoop compiles cs qs md ≠ .error .panicked := by
  induction cs with
  | nil =>
    intro qs md
    simp [UnmarshalProtoMetadata.queriesLoop, querypb.Query.hasInvalid.any, Except.isOk,
      Except.toBool]
  | cons c cs ih =>
    intro qs md
    have hc := h c (List.mem_cons_self c cs) md
    have ih := ih (fun x hx => h x (List.mem_cons_of_mem c hx))
    by_cases hs : c.isSentinel = true
    · obtain ⟨t, rfl⟩ := querypb.Query.isSentinel_iff.mp hs
      rw [UnmarshalProtoMetadata.queriesLoop_sentinel]
      simpa [querypb.Query.hasInvalid.any, querypb.Query.hasInvalid] using
        ih qs (md ++ [t])
    · have hs : c.isSentinel = false := by simpa using hs
      rw [UnmarshalProtoMetadata.queriesLoop_other compiles c hs]
      simp only [querypb.Query.hasInvalid.any]
      cases hd : UnmarshalProtoMetadata compiles c md with
      | error e =>
        simp [hd, Except.isOk, Except.toBool] at hc
        simp [hc, Except.isOk, Except.toBool]
      | ok r =>
        simp [hd, Except.isOk, Except.toBool] at hc
        simpa [hc] using ih (qs ++ [r.1]) r.2

theorem UnmarshalProtoMetadata_outcome (compiles : String → Bool) :
    ∀ q : querypb.Query, q.hasNil = false → ∀ md : List String,
      (UnmarshalProtoMetadata compiles q md).isOk = !q.hasInvalid compiles ∧
        UnmarshalProtoMetadata compiles q md ≠ .error .panicked := by
  intro q
  induction q using querypb.Query.wire_induct with
  | nil => intro h; simp [querypb.Query.hasNil] at h
  | unset =>
    intro _ md
    simp [UnmarshalProtoMetadata, querypb.Query.hasInvalid, Except.isOk, Except.toBool]
  | nilPayload v => intro h; simp [querypb.Query.hasNil] at h
  | all =>
    intro _ md
    simp [UnmarshalProtoMetadata, querypb.Query.hasInvalid, Except.isOk, Except.toBool]
  | field f =>
    intro _ md
    simp [UnmarshalProtoMetadata, querypb.Query.hasInvalid, Except.isOk, Except.toBool]
  | term f t =>
    intro _ md
    by_cases hf : fldMetadata = f <;>
      simp [UnmarshalProtoMetadata, querypb.Query.hasInvalid, hf, Except.isOk,
        Except.toBool]
  | regexp f r =>
    intro _ md
    cases hc : compiles r <;>
      simp [UnmarshalProtoMetadata, NewRegexpQuery, querypb.Query.hasInvalid, hc,
        Except.isOk, Except.toBool]
  | negation q ih =>
    intro h md
    simp only [querypb.Query.hasNil] at h
    have ih := ih h md
    simp only [UnmarshalProtoMetadata, querypb.Query.hasInvalid]
    cases hd : UnmarshalProtoMetadata compiles q md with
    | error e =>
      simp [hd, Except.isOk, Except.toBool] at ih
      simp [ih, Except.isOk, Except.toBool]
    | ok s =>
      simp [hd, Except.isOk, Except.toBool] at ih
      simp [ih, Except.isOk, Except.toBool]
  | conjunction qs ih =>
    intro h md
    simp only [querypb.Query.hasNil, querypb.Query.hasNil.wire_any_nil_eq_false] at h
    have hl := UnmarshalProtoMetadata.queriesLoop_outcome compiles qs
      (fun c hc => ih c hc (h c hc)) [] md
    simp only [UnmarshalProtoMetadata, querypb.Query.hasInvalid]
    cases hd : UnmarshalProtoMetadata.queriesLoop compiles qs [] md with
    | error e =>
      simp [hd, Except.isOk, Except.toBool] at hl
      simp [hl, Except.isOk, Except.toBool]
    | ok r =>
      obtain ⟨l, m⟩ := r
      simp [hd, Except.isOk, Except.toBool] at hl
      by_cases hn : l.length = 0 <;> simp [hl, hn, Except.isOk, Except.toBool]
  | disjunction qs ih =>
    intro h md
    simp only [querypb.Query.hasNil, querypb.Query.hasNil.wire_any_nil_eq_false] at h
    have hl := UnmarshalProtoMetadata.queriesLoop_outcome compiles qs
      (fun c hc => ih c hc (h c hc)) [] md
    simp only [UnmarshalProtoMetadata, querypb.Query.hasInvalid]
    cases hd : UnmarshalProtoMetadata.queriesLoop compiles qs [] md with
    | error e =>
      simp [hd, Except.isOk, Except.toBool] at hl
      simp [hl, Except.isOk, Except.toBool]
    | ok r =>
      obtain ⟨l, m⟩ := r
      simp [hd, Except.isOk, Except.toBool] at hl
      by_cases hn : l.length = 0 <;> simp [hl, hn, Except.isOk, Except.toBool]

theorem Except.returned_error_iff {α : Type} (x : Except Failure α)
    (hx : x ≠ .error .panicked) :
    (∃ err, x = .error (.returned err)) ↔ x.isOk = false := by
  cases x with
  | ok v => simp [Except.isOk, Except.toBool]
  | error e =>
    cases e with
    | returned err => simp [Except.isOk, Except.toBool]
    | panicked => exact absurd rfl hx

/-- On a wire message without nil pointers neither decoder panics, and each
returns an error if and only if the message contains, at some depth, an unset
variant or a `Regexp` whose pattern does not compile. -/
theorem decoders_fail_iff_of_no_nil (compiles : String → Bool)
    (q : querypb.Query) (md : List String) (h : q.hasNil = false) :
    UnmarshalProto compiles q ≠ .error .panicked ∧
    UnmarshalProtoMetadata compiles q md ≠ .error .panicked ∧
    ((∃ err, UnmarshalProto compiles q = .error (.returned err)) ↔
      q.hasInvalid compiles = true) ∧
    ((∃ err, UnmarshalProtoMetadata compiles q md = .error (.returned err)) ↔
      q.hasInvalid compiles = true) := by
  obtain ⟨h1, h2⟩ := UnmarshalProto_outcome compiles q h
  obtain ⟨h3, h4⟩ := UnmarshalProtoMetadata_outcome compiles q h md
  refine ⟨h2, h4, ?_, ?_⟩
  · rw [Except.returned_error_iff _ h2, h1]; simp
  · rw [Except.returned_error_iff _ h4, h3]; simp

/-- C9: error propagation fails on a nil sub-message.  The wire message
`Negation{Query: nil}` (what a Negation without inner query parses to) has an
inner query with no variant set, where the claim has the decode return an
error; both decoders pass the nil pointer to the recursive call, which
dereferences it: they panic and return no error.  In
`Conjunction [Negation{Query: nil}, Query{}]` the second child has its `oneof`
unset, and both decoders panic on the first child before they reach it. -/
theorem decoders_panic_on_nil_query (compiles : String → Bool) (md : List String) :
    (querypb.Query.Negation .nil).hasInvalid compiles = true ∧
    UnmarshalProto compiles (.Negation .nil) = .error .panicked ∧
    UnmarshalProtoMetadata compiles (.Negation .nil) md = .error .panicked ∧
    (¬ ∃ err, UnmarshalProto compiles (.Negation .nil) = .error (.returned err)) ∧
    (¬ ∃ err, UnmarshalProtoMetadata compiles (.Negation .nil) md
      = .error (.returned err)) ∧
    (querypb.Query.Conjunction [.Negation .nil, .unset]).hasInvalid compiles = true ∧
    UnmarshalProto compiles (.Conjunction [.Negation .nil, .unset])
      = .error .panicked ∧
    UnmarshalProtoMetadata compiles (.Conjunction [.Negation .nil, .unset]) md
      = .error .panicked := by
  have h1 : UnmarshalProto compiles (.Negation .nil) = .error .panicked := by rfl
  have h2 : UnmarshalProtoMetadata compiles (.Negation .nil) md = .error .panicked := by
    rfl
  refine ⟨by rfl, h1, h2, ?_, ?_, by rfl, by rfl, ?_⟩
  · rintro ⟨err, he⟩
    rw [h1] at he
    cases he
  · rintro ⟨err, he⟩
    rw [h2] at he
    cases he
  · simp [UnmarshalProtoMetadata, UnmarshalProtoMetadata.queriesLoop,
      querypb.Query.GetTerm]

/-! ## `Marshal` and the nil query -/

/-- C14: `Marshal` fails with the nil-query error exactly when it is given no
query.  `Marshal nil` returns `errNilQuery`; for a non-nil query `Marshal`
returns what the serialiser returns on the query's wire form, which is never
`errNilQuery` (a variable private to package `query`, that the serialiser
cannot return). -/
theorem Marshal_errNilQuery_iff {β : Type}
    (pbMarshal : querypb.Query → Except Error β)
    (hpb : ∀ w, pbMarshal w ≠ .error .errNilQuery) (q : Option search.Query) :
    Marshal pbMarshal none = .error .errNilQuery ∧
    (Marshal pbMarshal q = .error .errNilQuery ↔ q = none) ∧
    (∀ t : search.Query, Marshal pbMarshal (some t) = pbMarshal t.ToProto) := by
  refine ⟨rfl, ?_, fun _ => rfl⟩
  cases q with
  | none => simp [Marshal]
  | some t => simpa [Marshal] using hpb t.ToProto

theorem Marshal_errNilQuery_iff_witness :
    (∀ w : querypb.Query,
      (Except.ok w : Except Error querypb.Query) ≠ .error .errNilQuery) ∧
    (Marshal (Except.ok : querypb.Query → Except Error querypb.Query) none
        = .error .errNilQuery ∧
      (Marshal (Except.ok : querypb.Query → Except Error querypb.Query)
          (some (.Term "tag" "value")) = .error .errNilQuery ↔
        some (search.Query.Term "tag" "value") = none) ∧
      (∀ t : search.Query,
        Marshal (Except.ok : querypb.Query → Except Error querypb.Query) (some t)
          = .ok t.ToProto)) :=
  ⟨(fun _ h => Except.noConfusion h),
    Marshal_errNilQuery_iff Except.ok (fun _ h => Except.noConfusion h)
      (some (.Term "tag" "value"))⟩

/-! ## A sentinel below a Negation -/

/-- C16: depth asymmetry between the modes.  For every value `v`, the wire
message `Conjunction [Negation (Term "__metadata__" v)]` decodes under
`UnmarshalProto` to `Conjunction [Negation (Term "__metadata__" v)]` (the
nested sentinel survives as a predicate), while `UnmarshalProtoMetadata`
decodes it to `Conjunction [Negation All]` with metadata `[v]`. -/
theorem nested_sentinel_asymmetry (compiles : String → Bool) (v : String) :
    UnmarshalProto compiles (.Conjunction [.Negation (.Term "__metadata__" v)])
      = .ok (.Conjunction [.Negation (.Term "__metadata__" v)]) ∧
    UnmarshalProtoMetadata compiles
        (.Conjunction [.Negation (.Term "__metadata__" v)]) []
      = .ok (.Conjunction [.Negation .All], [v]) := by
  constructor
  · rfl
  · simp [UnmarshalProtoMetadata, UnmarshalProtoMetadata.queriesLoop,
      querypb.Query.GetTerm, fldMetadata, NewAllQuery, NewNegationQuery,
      NewConjunctionQuery]

/-! ## Negation -/

/-- C17: negation propagation.  In both modes, decoding `Negation q` fails
exactly when decoding `q` fails (with the same error) and otherwise returns
the `Negation` of the decoding of `q`; in metadata-aware mode the metadata
list returned for `Negation q` is the one returned for `q`.  In particular
`Negation (Term f v)` with `f` different from `"__metadata__"` decodes to
`Negation (Term f v)` under both modes, with no metadata added. -/
theorem Negation_propagation (compiles : String → Bool) (q : querypb.Query)
    (md : List String) :
    UnmarshalProto compiles (.Negation q)
      = (UnmarshalProto compiles q).map search.Query.Negation ∧
    UnmarshalProtoMetadata compiles (.Negation q) md
      = (UnmarshalProtoMetadata compiles q md).map
          (fun r => (search.Query.Negation r.1, r.2)) ∧
    (∀ f v : String, f ≠ "__metadata__" →
      UnmarshalProto compiles (.Negation (.Term f v)) = .ok (.Negation (.Term f v)) ∧
      UnmarshalProtoMetadata compiles (.Negation (.Term f v)) md
        = .ok (.Negation (.Term f v), md)) := by
  refine ⟨?_, ?_, ?_⟩
  · simp only [UnmarshalProto]
    cases UnmarshalProto compiles q <;> simp [Except.map, NewNegationQuery]
  · simp only [UnmarshalProtoMetadata]
    cases UnmarshalProtoMetadata compiles q md <;> simp [Except.map, NewNegationQuery]
  · intro f v hf
    have hf' : ¬ fldMetadata = f := fun e => hf e.symm
    exact ⟨rfl, by simp [UnmarshalProtoMetadata, hf', NewNegationQuery, NewTermQuery]⟩

/-! ## Threading of the metadata list -/

/-- C18: metadata threading is append-only.  If `UnmarshalProtoMetadata q md`
succeeds, then `UnmarshalProtoMetadata q []` succeeds with the same tree, and
the returned metadata list is `md` followed by the list that
`UnmarshalProtoMetadata q []` returns. -/
theorem metadata_threading_append_only (compiles : String → Bool)
    (q : querypb.Query) (md : List String) (tree : search.Query) (md' : List String)
    (h : UnmarshalProtoMetadata compiles q md = .ok (tree, md')) :
    ∃ m, UnmarshalProtoMetadata compiles q [] = .ok (tree, m) ∧ md' = md ++ m := by
  rw [UnmarshalProtoMetadata_append compiles q md] at h
  cases hd : UnmarshalProtoMetadata compiles q [] with
  | error e => simp [hd, Except.map] at h
  | ok r =>
    obtain ⟨t0, m0⟩ := r
    simp [hd, Except.map] at h
    exact ⟨m0, by rw [h.1], h.2.symm⟩

theorem metadata_threading_append_only_witness :
    UnmarshalProtoMetadata (fun _ => true)
        (.Disjunction [.Term "__metadata__" "a", .Negation (.Term "__metadata__" "b"),
          .Term "tag" "value"]) ["y", "z"]
      = .ok (.Disjunction [.Negation .All, .Term "tag" "value"], ["y", "z", "a", "b"]) ∧
    ∃ m, UnmarshalProtoMetadata (fun _ => true)
        (.Disjunction [.Term "__metadata__" "a", .Negation (.Term "__metadata__" "b"),
          .Term "tag" "value"]) []
      = .ok (.Disjunction [.Negation .All, .Term "tag" "value"], m) ∧
      ["y", "z", "a", "b"] = ["y", "z"] ++ m :=
  ⟨by rfl, metadata_threading_append_only (fun _ => true)
    (.Disjunction [.Term "__metadata__" "a", .Negation (.Term "__metadata__" "b"),
      .Term "tag" "value"]) ["y", "z"] _ ["y", "z", "a", "b"] (by rfl)⟩

/-! ## The two modes on messages with sentinels below Conjunctions only -/

theorem querypb.Query.sentinelsUnderConjunction.conjunctionChildren_iff
    {l : List querypb.Query} :
    querypb.Query.sentinelsUnderConjunction.conjunctionChildren l = true ↔
      ∀ q ∈ l, q.isSentinel = true ∨ q.sentinelsUnderConjunction = true := by
  induction l with
  | nil => simp [querypb.Query.sentinelsUnderConjunction.conjunctionChildren]
  | cons a l ih =>
    simp [querypb.Query.sentinelsUnderConjunction.conjunctionChildren, ih]

theorem querypb.Query.sentinelsUnderConjunction.children_iff
    {l : List querypb.Query} :
    querypb.Query.sentinelsUnderConjunction.children l = true ↔
      ∀ q ∈ l, q.sentinelsUnderConjunction = true := by
  induction l with
  | nil => simp [querypb.Query.sentinelsUnderConjunction.children]
  | cons a l ih => simp [querypb.Query.sentinelsUnderConjunction.children, ih]

theorem querypb.Query.isSentinel_of_sentinelsUnderConjunction {c : querypb.Query}
    (h : c.sentinelsUnderConjunction = true) : c.isSentinel = false := by
  cases c <;>
    simp_all [querypb.Query.sentinelsUnderConjunction, querypb.Query.isSentinel]

theorem UnmarshalProtoMetadata.queriesLoop_fst_conjunctionLoop
    (compiles : String → Bool) (cs : List querypb.Query)
    (hs : ∀ c ∈ cs, c.isSentinel = true ∨ c.sentinelsUnderConjunction = true)
    (h : ∀ c ∈ cs, c.sentinelsUnderConjunction = true → ∀ md,
      (UnmarshalProtoMetadata compiles c md).map Prod.fst = UnmarshalProto compiles c) :
    ∀ qs md, (UnmarshalProtoMetadata.queriesLoop compiles cs qs md).map Prod.fst
      = UnmarshalProto.conjunctionLoop compiles cs qs := by
  induction cs with
  | nil =>
    intro qs md
    simp [UnmarshalProtoMetadata.queriesLoop, UnmarshalProto.conjunctionLoop, Except.map]
  | cons c cs ih =>
    intro qs md
    have ih := ih (fun x hx => hs x (List.mem_cons_of_mem c hx))
      (fun x hx => h x (List.mem_cons_of_mem c hx))
    by_cases hc : c.isSentinel = true
    · obtain ⟨t, rfl⟩ := querypb.Query.isSentinel_iff.mp hc
      rw [UnmarshalProtoMetadata.queriesLoop_sentinel,
        UnmarshalProto.conjunctionLoop_sentinel, ih]
    · have hw : c.sentinelsUnderConjunction = true :=
        (hs c (List.mem_cons_self c cs)).resolve_left hc
      have hc' : c.isSentinel = false := by simpa using hc
      have hd := h c (List.mem_cons_self c cs) hw md
      rw [UnmarshalProtoMetadata.queriesLoop_other compiles c hc',
        UnmarshalProto.conjunctionLoop_other compiles c hc', ← hd]
      cases UnmarshalProtoMetadata compiles c md with
      | error e => simp [Except.map]
      | ok r =>
        have hr := ih (qs ++ [r.1]) r.2
        simp only [Except.map] at hr ⊢
        exact hr

theorem UnmarshalProtoMetadata.queriesLoop_fst_disjunctionLoop
    (compiles : String → Bool) (cs : List querypb.Query)
    (hs : ∀ c ∈ cs, c.sentinelsUnderConjunction = true)
    (h : ∀ c ∈ cs, c.sentinelsUnderConjunction = true → ∀ md,
      (UnmarshalProtoMetadata compiles c md).map Prod.fst = UnmarshalProto compiles c) :
    ∀ qs md, (UnmarshalProtoMetadata.queriesLoop compiles cs qs md).map Prod.fst
      = UnmarshalProto.disjunctionLoop compiles cs qs := by
  induction cs with
  | nil =>
    intro qs md
    simp [UnmarshalProtoMetadata.queriesLoop, UnmarshalProto.disjunctionLoop, Except.map]
  | cons c cs ih =>
    intro qs md
    have ih := ih (fun x hx => hs x (List.mem_cons_of_mem c hx))
      (fun x hx => h x (List.mem_cons_of_mem c hx))
    have hw := hs c (List.mem_cons_self c cs)
    have hc' := querypb.Query.isSentinel_of_sentinelsUnderConjunction hw
    have hd := h c (List.mem_cons_self c cs) hw md
    rw [UnmarshalProtoMetadata.queriesLoop_other compiles c hc']
    simp only [UnmarshalProto.disjunctionLoop]
    rw [← hd]
    cases UnmarshalProtoMetadata compiles c md with
    | error e => simp [Except.map]
    | ok r =>
      have hr := ih (qs ++ [r.1]) r.2
      simp only [Except.map] at hr ⊢
      exact hr

theorem UnmarshalProtoMetadata_fst_eq_UnmarshalProto (compiles : String → Bool) :
    ∀ q : querypb.Query, q.sentinelsUnderConjunction = true → ∀ md,
      (UnmarshalProtoMetadata compiles q md).map Prod.fst = UnmarshalProto compiles q := by
  intro q
  induction q using querypb.Query.wire_induct with
  | nil => intro _ md; rfl
  | unset => intro _ md; rfl
  | nilPayload v => intro _ md; rfl
  | all => intro _ md; rfl
  | field f => intro _ md; rfl
  | term f t =>
    intro hw md
    have hf : ¬ fldMetadata = f := by
      intro e
      simp [querypb.Query.sentinelsUnderConjunction, ← e, fldMetadata] at hw
    simp [UnmarshalProtoMetadata, UnmarshalProto, Except.map, hf]
  | regexp f r =>
    intro _ md
    cases hc : compiles r <;>
      simp [UnmarshalProtoMetadata, UnmarshalProto, NewRegexpQuery, Except.map, hc]
  | negation q ih =>
    intro hw md
    simp only [querypb.Query.sentinelsUnderConjunction] at hw
    simp only [UnmarshalProtoMetadata, UnmarshalProto, ← ih hw md]
    cases UnmarshalProtoMetadata compiles q md <;> simp [Except.map]
  | conjunction qs ih =>
    intro hw md
    simp only [querypb.Query.sentinelsUnderConjunction, Bool.and_eq_true,
      querypb.Query.sentinelsUnderConjunction.conjunctionChildren_iff] at hw
    have hne : ∃ c ∈ qs, c.isSentinel = false := by
      simpa [List.any_eq_true] using hw.1
    have hloop := UnmarshalProtoMetadata.queriesLoop_fst_conjunctionLoop compiles qs
      hw.2 ih [] md
    simp only [UnmarshalProtoMetadata, UnmarshalProto, ← hloop]
    cases hl : UnmarshalProtoMetadata.queriesLoop compiles qs [] md with
    | error e => simp [Except.map]
    | ok r =>
      obtain ⟨l, m⟩ := r
      have hn := (UnmarshalProtoMetadata.queriesLoop_ne_nil compiles qs hne _ _ _ hl).1
      simp [Except.map, hn]
  | disjunction qs ih =>
    intro hw md
    simp only [querypb.Query.sentinelsUnderConjunction, Bool.and_eq_true,
      querypb.Query.sentinelsUnderConjunction.children_iff] at hw
    have hne : ∃ c ∈ qs, c.isSentinel = false := by
      cases qs with
      | nil => simp at hw
      | cons c cs =>
        exact ⟨c, List.mem_cons_self c cs,
          querypb.Query.isSentinel_of_sentinelsUnderConjunction
            (hw.2 c (List.mem_cons_self c cs))⟩
    have hloop := UnmarshalProtoMetadata.queriesLoop_fst_disjunctionLoop compiles qs
      hw.2 ih [] md
    simp only [UnmarshalProtoMetadata, UnmarshalProto, ← hloop]
    cases hl : UnmarshalProtoMetadata.queriesLoop compiles qs [] md with
    | error e => simp [Except.map]
    | ok r =>
      obtain ⟨l, m⟩ := r
      have hn := (UnmarshalProtoMetadata.queriesLoop_ne_nil compiles qs hne _ _ _ hl).1
      simp [Except.map, hn]

/-- C20: conditional agreement of the two decoders.  For every wire message in
which `Term`s with field `"__metadata__"` occur only as direct children of
Conjunction nodes, every Conjunction has at least one non-sentinel direct
child and every Disjunction has at least one child, `UnmarshalProto` and
`UnmarshalProtoMetadata` (with any incoming metadata list) either both fail,
with the same error, or both succeed with the same query tree. -/
theorem decoders_agree_on_tree (compiles : String → Bool) (q : querypb.Query)
    (md : List String) (h : q.sentinelsUnderConjunction = true) :
    (UnmarshalProtoMetadata compiles q md).map Prod.fst = UnmarshalProto compiles q :=
  UnmarshalProtoMetadata_fst_eq_UnmarshalProto compiles q h md

theorem decoders_agree_on_tree_witness :
    (querypb.Query.Conjunction [.Term "tag" "value", .Term "__metadata__" "cardinality",
        .Disjunction [.Negation (.Field "dc"),
          .Conjunction [.Term "__metadata__" "x", .Regexp "host" "a.*"]]]
      ).sentinelsUnderConjunction = true ∧
    (UnmarshalProtoMetadata (fun _ => true)
        (.Conjunction [.Term "tag" "value", .Term "__metadata__" "cardinality",
          .Disjunction [.Negation (.Field "dc"),
            .Conjunction [.Term "__metadata__" "x", .Regexp "host" "a.*"]]]) ["z"]).map
        Prod.fst
      = UnmarshalProto (fun _ => true)
        (.Conjunction [.Term "tag" "value", .Term "__metadata__" "cardinality",
          .Disjunction [.Negation (.Field "dc"),
            .Conjunction [.Term "__metadata__" "x", .Regexp "host" "a.*"]]]) :=
  ⟨by rfl, decoders_agree_on_tree (fun _ => true) _ ["z"] (by rfl)⟩

/-! ## The accumulator of `metadata_results.go` -/

section MetadataResultsProofs

variable {ID Hash Result : Type}

theorem NewQueryMetadataResults_KeysMatch (namespaceID : ID) (hashFn : Hash) :
    (NewQueryMetadataResults namespaceID hashFn :
      metadataResults ID Hash Result).KeysMatch := by
  intro k e h
  simp [NewQueryMetadataResults, Finmap.lookup_empty] at h

theorem metadataResults.lookup_AddQueryMetadataResult_self
    (r : metadataResults ID Hash Result) (b : xtime.UnixNano) (x : Result) :
    (r.AddQueryMetadataResult b x).results.lookup b
      = some { BlockStart := ((r.results.lookup b).map (fun e => e.BlockStart)).getD b,
               Results := ((r.results.lookup b).map (fun e => e.Results)).getD [] ++ [x] } := by
  unfold metadataResults.AddQueryMetadataResult
  cases h : r.results.lookup b <;> simp [Finmap.lookup_insert]

theorem metadataResults.lookup_AddQueryMetadataResult_of_ne
    (r : metadataResults ID Hash Result) (b : xtime.UnixNano) (x : Result)
    (k : xtime.UnixNano) (hk : k ≠ b) :
    (r.AddQueryMetadataResult b x).results.lookup k = r.results.lookup k := by
  unfold metadataResults.AddQueryMetadataResult
  simp [Finmap.lookup_insert_of_ne _ hk]

theorem metadataResults.AddQueryMetadataResult_KeysMatch
    (r : metadataResults ID Hash Result) (h : r.KeysMatch)
    (b : xtime.UnixNano) (x : Result) : (r.AddQueryMetadataResult b x).KeysMatch := by
  intro k e hk
  by_cases hkb : k = b
  · subst hkb
    rw [metadataResults.lookup_AddQueryMetadataResult_self] at hk
    cases hl : r.results.lookup k with
    | none => simp [hl] at hk; simp [← hk]
    | some e0 => simp [hl] at hk; simp [← hk, h k e0 hl]
  · rw [metadataResults.lookup_AddQueryMetadataResult_of_ne r b x k hkb] at hk
    exact h k e hk

theorem metadataResults.addAll_KeysMatch (calls : List (xtime.UnixNano × Result)) :
    ∀ r : metadataResults ID Hash Result, r.KeysMatch → (r.addAll calls).KeysMatch := by
  induction calls with
  | nil => intro r h; exact h
  | cons c cs ih =>
    intro r h
    exact ih _ (metadataResults.AddQueryMetadataResult_KeysMatch r h c.1 c.2)

theorem metadataResults.AddQueryMetadataResult_spec
    (s : metadataResults ID Hash Result) (hinv : s.KeysMatch)
    (b : xtime.UnixNano) (x : Result) :
    (s.AddQueryMetadataResult b x).Map
      = s.Map.insert b
          { BlockStart := b,
            Results := ((s.Map.lookup b).map (fun e => e.Results)).getD [] ++ [x] } ∧
    (s.AddQueryMetadataResult b x).Map.lookup b
      = some { BlockStart := b,
               Results := ((s.Map.lookup b).map (fun e => e.Results)).getD [] ++ [x] } ∧
    (∀ k, k ≠ b → (s.AddQueryMetadataResult b x).Map.lookup k = s.Map.lookup k) ∧
    (s.AddQueryMetadataResult b x).Namespace = s.Namespace ∧
    (s.AddQueryMetadataResult b x).HashFn = s.HashFn := by
  have hself : (s.AddQueryMetadataResult b x).Map.lookup b
      = some { BlockStart := b,
               Results := ((s.Map.lookup b).map (fun e => e.Results)).getD [] ++ [x] } := by
    unfold metadataResults.Map
    rw [metadataResults.lookup_AddQueryMetadataResult_self]
    cases hl : s.results.lookup b with
    | none => simp
    | some e0 => simp [hinv b e0 hl]
  have hne : ∀ k, k ≠ b →
      (s.AddQueryMetadataResult b x).Map.lookup k = s.Map.lookup k :=
    fun k hk => metadataResults.lookup_AddQueryMetadataResult_of_ne s b x k hk
  refine ⟨?_, hself, hne, rfl, rfl⟩
  apply Finmap.ext_lookup
  intro k
  by_cases hk : k = b
  · subst hk
    rw [hself, Finmap.lookup_insert]
  · rw [hne k hk, Finmap.lookup_insert_of_ne _ hk]

/-- C10: postcondition of `AddQueryMetadataResult`.  In every accumulator state
(one built by `NewQueryMetadataResults` and any sequence of
`AddQueryMetadataResult` calls), after `AddQueryMetadataResult b x` the mapping
is the old mapping updated at key `b` only: the entry at `b` has
`BlockStart = b` and `Results` equal to the previous `Results` for `b` (empty
when `b` was absent) with `x` appended at the end; the entries of every other
block start, the namespace and the hash function are unchanged. -/
theorem AddQueryMetadataResult_postcondition (namespaceID : ID) (hashFn : Hash)
    (calls : List (xtime.UnixNano × Result)) (b : xtime.UnixNano) (x : Result) :
    ((NewQueryMetadataResults namespaceID hashFn).addAll calls
        |>.AddQueryMetadataResult b x).Map
      = ((NewQueryMetadataResults namespaceID hashFn).addAll calls).Map.insert b
          { BlockStart := b,
            Results := ((((NewQueryMetadataResults namespaceID hashFn).addAll
              calls).Map.lookup b).map (fun e => e.Results)).getD [] ++ [x] } ∧
    ((NewQueryMetadataResults namespaceID hashFn).addAll calls
        |>.AddQueryMetadataResult b x).Map.lookup b
      = some { BlockStart := b,
               Results := ((((NewQueryMetadataResults namespaceID hashFn).addAll
                 calls).Map.lookup b).map (fun e => e.Results)).getD [] ++ [x] } ∧
    (∀ k, k ≠ b →
      ((NewQueryMetadataResults namespaceID hashFn).addAll calls
          |>.AddQueryMetadataResult b x).Map.lookup k
        = ((NewQueryMetadataResults namespaceID hashFn).addAll calls).Map.lookup k) ∧
    ((NewQueryMetadataResults namespaceID hashFn).addAll calls
        |>.AddQueryMetadataResult b x).Namespace
      = ((NewQueryMetadataResults namespaceID hashFn).addAll calls).Namespace ∧
    ((NewQueryMetadataResults namespaceID hashFn).addAll calls
        |>.AddQueryMetadataResult b x).HashFn
      = ((NewQueryMetadataResults namespaceID hashFn).addAll calls).HashFn :=
  metadataResults.AddQueryMetadataResult_spec _
    (metadataResults.addAll_KeysMatch calls _
      (NewQueryMetadataResults_KeysMatch namespaceID hashFn)) b x

/-! ## The accumulator after a sequence of calls -/

theorem metadataResults.addAll_snoc (r : metadataResults ID Hash Result)
    (calls : List (xtime.UnixNano × Result)) (call : xtime.UnixNano × Result) :
    r.addAll (calls ++ [call]) = (r.addAll calls).AddQueryMetadataResult call.1 call.2 := by
  simp [metadataResults.addAll, List.foldl_append]

theorem metadataResults.lookup_addAll (namespaceID : ID) (hashFn : Hash)
    (calls : List (xtime.UnixNano × Result)) (b : xtime.UnixNano) :
    ((NewQueryMetadataResults namespaceID hashFn :
        metadataResults ID Hash Result).addAll calls).results.lookup b
      = if (calls.filter (fun call => decide (call.1 = b))).isEmpty then none
        else some { BlockStart := b,
                    Results := (calls.filter (fun call => decide (call.1 = b))).map
                      Prod.snd } := by
  induction calls using List.reverseRecOn with
  | nil => simp [metadataResults.addAll, NewQueryMetadataResults, Finmap.lookup_empty]
  | append_singleton cs c ih =>
    rw [metadataResults.addAll_snoc]
    by_cases hc : c.1 = b
    · subst hc
      rw [metadataResults.lookup_AddQueryMetadataResult_self, ih]
      by_cases he : (cs.filter (fun call => decide (call.1 = c.1))).isEmpty = true
      · simp only [List.isEmpty_iff] at he
        simp [List.filter_append, he]
      · simp [List.filter_append, he]
    · have hc' : b ≠ c.1 := fun e => hc e.symm
      have hf : (cs ++ [c]).filter (fun call => decide (call.1 = b))
          = cs.filter (fun call => decide (call.1 = b)) := by
        simp [List.filter_append, List.filter_cons, hc]
      rw [metadataResults.lookup_AddQueryMetadataResult_of_ne _ _ _ _ hc', ih, hf]

theorem count_map_fst_eq_length_filter (calls : List (xtime.UnixNano × Result))
    (b : xtime.UnixNano) :
    (calls.map Prod.fst).count b
      = (calls.filter (fun call => decide (call.1 = b))).length := by
  induction calls with
  | nil => simp
  | cons c cs ih =>
    by_cases hc : c.1 = b
    · simp [List.count_cons, List.filter_cons, hc, ih]
    · simp [List.count_cons, List.filter_cons, hc, ih]

theorem metadataResults.keys_addAll (namespaceID : ID) (hashFn : Hash)
    (calls : List (xtime.UnixNano × Result)) :
    ((NewQueryMetadataResults namespaceID hashFn :
        metadataResults ID Hash Result).addAll calls).results.keys
      = (calls.map Prod.fst).toFinset := by
  ext k
  rw [Finmap.mem_keys, ← Finmap.lookup_isSome, metadataResults.lookup_addAll]
  by_cases he : (calls.filter (fun call => decide (call.1 = k))).isEmpty = true
  · have he' := he
    simp only [List.isEmpty_iff, List.filter_eq_nil_iff] at he'
    simp only [he, if_true, Option.isSome_none, List.mem_toFinset, List.mem_map]
    constructor
    · intro h; cases h
    · rintro ⟨c, hc, rfl⟩
      exact absurd (by simp) (he' c hc)
  · have he' := he
    simp only [List.isEmpty_iff, List.filter_eq_nil_iff, not_forall] at he'
    obtain ⟨c, hc, hk⟩ := he'
    simp only [he, if_false, Option.isSome_some, List.mem_toFinset, List.mem_map]
    exact ⟨fun _ => ⟨c, hc, by simpa using hk⟩, fun _ => by simp⟩

/-- C11: no lost or duplicated entries.  After any sequence of
`AddQueryMetadataResult` calls (in the order in which the lock serialised
them) on an accumulator built by `NewQueryMetadataResults`, the keys of the
mapping returned by `Map` are exactly the distinct block starts of the calls,
and the numbers of results of all blocks add up to the number of calls. -/
theorem Map_total_results (namespaceID : ID) (hashFn : Hash)
    (calls : List (xtime.UnixNano × Result)) :
    ((NewQueryMetadataResults namespaceID hashFn :
        metadataResults ID Hash Result).addAll calls).Map.keys
      = (calls.map Prod.fst).toFinset ∧
    ((NewQueryMetadataResults namespaceID hashFn :
        metadataResults ID Hash Result).addAll calls).Map.keys.card
      = (calls.map Prod.fst).dedup.length ∧
    (∑ k in ((NewQueryMetadataResults namespaceID hashFn :
        metadataResults ID Hash Result).addAll calls).Map.keys,
      ((((NewQueryMetadataResults namespaceID hashFn :
        metadataResults ID Hash Result).addAll calls).Map.lookup k).map
          (fun e => e.Results.length)).getD 0)
      = calls.length := by
  have hk : ((NewQueryMetadataResults namespaceID hashFn :
        metadataResults ID Hash Result).addAll calls).results.keys
      = (calls.map Prod.fst).toFinset :=
    metadataResults.keys_addAll namespaceID hashFn calls
  refine ⟨hk, ?_, ?_⟩
  · unfold metadataResults.Map
    rw [hk, List.card_toFinset]
  · unfold metadataResults.Map
    rw [hk]
    have hlen : calls.length = (calls.map Prod.fst).length := by simp
    rw [hlen, ← List.sum_toFinset_count_eq_length]
    apply Finset.sum_congr rfl
    intro k _
    rw [metadataResults.lookup_addAll, count_map_fst_eq_length_filter]
    by_cases he : (calls.filter (fun call => decide (call.1 = k))).isEmpty = true
    · have he' : calls.filter (fun call => decide (call.1 = k)) = [] := by simpa using he
      simp [he']
    · simp [he]

/-- C12: arrival order within a block.  After the calls
`AddQueryMetadataResult b₁ r₁, …, AddQueryMetadataResult bₙ rₙ`, applied in
that order to a fresh accumulator, the entry stored for a block start `b` is
absent when no call has `bᵢ = b`, and otherwise has `BlockStart = b` and as
`Results` exactly the subsequence of the `rᵢ` with `bᵢ = b`, in call order. -/
theorem Results_in_call_order (namespaceID : ID) (hashFn : Hash)
    (calls : List (xtime.UnixNano × Result)) (b : xtime.UnixNano) :
    ((NewQueryMetadataResults namespaceID hashFn :
        metadataResults ID Hash Result).addAll calls).Map.lookup b
      = if (calls.filter (fun call => decide (call.1 = b))).isEmpty then none
        else some { BlockStart := b,
                    Results := (calls.filter (fun call => decide (call.1 = b))).map
                      Prod.snd } :=
  metadataResults.lookup_addAll namespaceID hashFn calls b

theorem metadataResults.run_of_no_add (calls : List (metadataResults.Call Result)) :
    ∀ s : metadataResults ID Hash Result, (∀ call ∈ calls, call.isAdd = false) →
      s.run calls = s := by
  induction calls with
  | nil => intro s _; rfl
  | cons c cs ih =>
    intro s h
    have hc := h c (List.mem_cons_self c cs)
    have hs : s.step c = s := by
      cases c <;> first | rfl | simp [metadataResults.Call.isAdd] at hc
    have := ih s (fun x hx => h x (List.mem_cons_of_mem c hx))
    simpa [metadataResults.run, hs] using this

/-- C13: idempotent read.  `Map` does not modify the accumulator: in every
state, the state after a `Map` call is the state before it, and a second `Map`
call, made after any sequence of `Namespace`, `HashFn`, `Map` and `Finalize`
calls with no `AddQueryMetadataResult` among them, returns the mapping that the
first one returned. -/
theorem Map_read_is_idempotent (s : metadataResults ID Hash Result)
    (calls : List (metadataResults.Call Result))
    (h : ∀ call ∈ calls, call.isAdd = false) :
    s.step .Map = s ∧ ((s.step .Map).run calls).Map = s.Map := by
  refine ⟨rfl, ?_⟩
  have hs : s.step .Map = s := rfl
  rw [hs, metadataResults.run_of_no_add calls s h]

theorem Map_read_is_idempotent_witness :
    (∀ call ∈ [metadataResults.Call.Namespace, .Finalize, .HashFn, .Map],
      (call : metadataResults.Call String).isAdd = false) ∧
    (((NewQueryMetadataResults "ns" () : metadataResults String Unit String).addAll
        [(1, "a"), (2, "b"), (1, "c")]).step .Map
      = (NewQueryMetadataResults "ns" ()).addAll [(1, "a"), (2, "b"), (1, "c")] ∧
    ((((NewQueryMetadataResults "ns" () : metadataResults String Unit String).addAll
        [(1, "a"), (2, "b"), (1, "c")]).step .Map).run
          [.Namespace, .Finalize, .HashFn, .Map]).Map
      = ((NewQueryMetadataResults "ns" () : metadataResults String Unit String).addAll
          [(1, "a"), (2, "b"), (1, "c")]).Map) :=
  have h : ∀ call ∈ [metadataResults.Call.Namespace, .Finalize, .HashFn, .Map],
      (call : metadataResults.Call String).isAdd = false := by
    intro call hc
    simp only [List.mem_cons, List.mem_singleton, List.not_mem_nil, or_false] at hc
    rcases hc with rfl | rfl | rfl | rfl <;> rfl
  ⟨h, Map_read_is_idempotent _ _ h⟩

/-- C19: key/BlockStart invariant.  In every accumulator state reached from
`NewQueryMetadataResults` by a sequence of `AddQueryMetadataResult` calls,
every entry stored in the mapping under a key `k` has `BlockStart = k` and a
non-empty `Results` sequence. -/
theorem entries_keyed_by_BlockStart (namespaceID : ID) (hashFn : Hash)
    (calls : List (xtime.UnixNano × Result)) (k : xtime.UnixNano)
    (e : QueryMetadataBlockResults Result)
    (h : ((NewQueryMetadataResults namespaceID hashFn :
        metadataResults ID Hash Result).addAll calls).Map.lookup k = some e) :
    e.BlockStart = k ∧ e.Results ≠ [] := by
  unfold metadataResults.Map at h
  rw [metadataResults.lookup_addAll] at h
  by_cases he : (calls.filter (fun call => decide (call.1 = k))).isEmpty = true
  · simp [he] at h
  · rw [if_neg he] at h
    simp only [Option.some.injEq] at h
    subst h
    refine ⟨rfl, ?_⟩
    simp only [List.isEmpty_iff] at he
    simpa using he

theorem entries_keyed_by_BlockStart_witness :
    ((NewQueryMetadataResults "ns" () : metadataResults String Unit String).addAll
        [(1, "a"), (2, "b"), (1, "c")]).Map.lookup 1 = some ⟨1, ["a", "c"]⟩ ∧
    ((⟨1, ["a", "c"]⟩ : QueryMetadataBlockResults String).BlockStart = 1 ∧
      (⟨1, ["a", "c"]⟩ : QueryMetadataBlockResults String).Results ≠ []) :=
  ⟨by rfl, entries_keyed_by_BlockStart "ns" () [(1, "a"), (2, "b"), (1, "c")] 1
    ⟨1, ["a", "c"]⟩ (by rfl)⟩

end MetadataResultsProofs

end M3
